import Mathlib

/-!
# routetrie: a shallow embedding of `routetrie.go`

The Go package implements a path trie with literal, `:param` and `*wildcard`
segments.  This development embeds `normalize`, `split`, `Add`, `getValue` and
`Get` as Lean functions and settles the properties of the specification.

Modelling conventions:
* a Go `string` is a `List Char` (`Str`); all characters the code inspects
  (`/`, `:`, `*`) are ASCII, so byte indexing and character indexing agree;
* an `interface{}` value is an `Option V`, with `none` for Go's `nil`;
* a Go `map` is an association list with at most one entry per key
  (`mapGet`, `mapSet`); a `nil` map result is `none`;
* in-place mutation is explicit state passing: `Add` returns the new trie
  together with the error, `getValue` returns the value together with the
  new contents of the `params` map;
* recursion on the route goes through a fuel argument; the entry points pass
  `route.length + 1`, which is always enough (`Add_unfold`, `getValue_unfold`).
-/

namespace routetrie

/-- Go strings, as lists of characters. -/
abbrev Str := List Char

/-- Go maps keyed by strings, as association lists. -/
abbrev GoMap (α : Type) := List (Str × α)

/-- Map lookup `m[k]`; `none` when the key is missing. -/
def mapGet {α : Type} : GoMap α → Str → Option α
  | [], _ => none
  | (k', a) :: rest, k => if k' = k then some a else mapGet rest k

/-- Map assignment `m[k] = a`: replaces the entry of `k`, or adds one. -/
def mapSet {α : Type} : GoMap α → Str → α → GoMap α
  | [], k, a => [(k, a)]
  | (k', a') :: rest, k, a =>
    if k' = k then (k, a) :: rest else (k', a') :: mapSet rest k a

/-- The `params` map of `Get`. -/
abbrev Params := GoMap Str

/-- The struct `wildcardChild` of the source. -/
structure wildcardChild (V : Type) where
  name : Str
  value : Option V

/-- The struct `RouteTrie` of the source. The `paramChild` struct (a name and a
trie) is the pair in the second field; a `nil` pointer is `none`. -/
inductive RouteTrie (V : Type) where
  | mk (children : List (Str × RouteTrie V)) (paramChild : Option (Str × RouteTrie V))
      (wildcard : Option (wildcardChild V)) (value : Option V) : RouteTrie V

/-- Field `children`. -/
def RouteTrie.children {V : Type} : RouteTrie V → GoMap (RouteTrie V)
  | .mk c _ _ _ => c

/-- Field `paramChild`. -/
def RouteTrie.paramChild {V : Type} : RouteTrie V → Option (Str × RouteTrie V)
  | .mk _ p _ _ => p

/-- Field `wildcardChild`. -/
def RouteTrie.wildcardChild {V : Type} : RouteTrie V → Option (wildcardChild V)
  | .mk _ _ w _ => w

/-- Field `value`. -/
def RouteTrie.value {V : Type} : RouteTrie V → Option V
  | .mk _ _ _ v => v

/-- The constructor `NewRouteTrie`: an empty `children` map, all else nil. -/
def NewRouteTrie {V : Type} : RouteTrie V := .mk [] none none none

/-- The call `strings.Index(route, "/")`; `none` stands for `-1`. -/
def indexSlash : Str → Option Nat
  | [] => none
  | c :: cs => if c = '/' then some 0 else (indexSlash cs).map (· + 1)

/-- The function `split`: cuts the route at its first `/`. -/
def split (route : Str) : Str × Str :=
  match indexSlash route with
  | none => (route, [])
  | some index => (route.take index, route.drop (index + 1))

/-- The function `normalize`: `strings.TrimLeft(route, "/")`. -/
def normalize (route : Str) : Str := route.dropWhile (fun c => decide (c = '/'))

/-- The call `strings.TrimRight(route, "/")`. -/
def trimRight (route : Str) : Str :=
  (route.reverse.dropWhile (fun c => decide (c = '/'))).reverse

/-- The outcomes of `Add` other than success: the error it returns, and the
run-time panic of `head[0]` on an empty `head`. -/
inductive AddError where
  | paramConflict
  | indexOutOfRange
  deriving DecidableEq, Repr

/-- The method `Add`, with a fuel argument bounding the recursion depth. The
result is the trie after the call and the returned error (`none` for `nil`). -/
def AddFuel {V : Type} : Nat → RouteTrie V → Str → Option V → RouteTrie V × Option AddError
  | 0, t, _, _ => (t, none)
  | n + 1, t, route, value =>
    let route := normalize route
    if route = [] then
      (.mk t.children t.paramChild t.wildcardChild value, none)
    else
      match split route with
      | ([], _) => (t, some .indexOutOfRange)
      | (c :: name, tail) =>
        if c = ':' then
          match t.paramChild with
          | none =>
            let r := AddFuel n NewRouteTrie tail value
            (.mk t.children (some (name, r.1)) t.wildcardChild t.value, r.2)
          | some (pname, ptrie) =>
            if pname ≠ name then (t, some .paramConflict)
            else
              let r := AddFuel n ptrie tail value
              (.mk t.children (some (pname, r.1)) t.wildcardChild t.value, r.2)
        else if c = '*' then
          (.mk t.children t.paramChild (some ⟨name, value⟩) t.value, none)
        else
          match mapGet t.children (c :: name) with
          | none =>
            let r := AddFuel n NewRouteTrie tail value
            (.mk (mapSet t.children (c :: name) r.1) t.paramChild t.wildcardChild t.value, r.2)
          | some nextNode =>
            let r := AddFuel n nextNode tail value
            (.mk (mapSet t.children (c :: name) r.1) t.paramChild t.wildcardChild t.value, r.2)

/-- The method `Add`. -/
def Add {V : Type} (t : RouteTrie V) (route : Str) (value : Option V) :
    RouteTrie V × Option AddError :=
  AddFuel (route.length + 1) t route value

/-- The method `getValue`, with a fuel argument bounding the recursion depth.
The result is the returned value and the contents of `params` after the call. -/
def getValueFuel {V : Type} : Nat → RouteTrie V → Str → Params → Option V × Params
  | 0, _, _, params => (none, params)
  | n + 1, t, route, params =>
    let route := normalize route
    if route = [] then (t.value, params)
    else
      let head := (split route).1
      let tail := (split route).2
      -- Check for direct matches.
      let r1 : Option V × Params :=
        match mapGet t.children head with
        | some childNode => getValueFuel n childNode tail params
        | none => (none, params)
      match r1.1 with
      | some v => (some v, r1.2)
      | none =>
        -- Check for matches on :param paths.
        let r2 : Option V × Params :=
          match t.paramChild with
          | some (pname, ptrie) =>
            let r := getValueFuel n ptrie tail r1.2
            match r.1 with
            | some v => (some v, mapSet r.2 pname head)
            | none => (none, r.2)
          | none => (none, r1.2)
        match r2.1 with
        | some v => (some v, r2.2)
        | none =>
          -- Check for matches on *wildcard paths.
          match t.wildcardChild with
          | some w =>
            (w.value, if w.name ≠ [] then mapSet r2.2 w.name (trimRight route) else r2.2)
          | none => (none, r2.2)

/-- The method `getValue`. -/
def getValue {V : Type} (t : RouteTrie V) (route : Str) (params : Params) :
    Option V × Params :=
  getValueFuel (route.length + 1) t route params

/-- The method `Get`: the value and the map, or `(nil, nil)`. -/
def Get {V : Type} (t : RouteTrie V) (route : Str) : Option V × Option Params :=
  let r := getValue t route []
  match r.1 with
  | some v => (some v, some r.2)
  | none => (none, none)

/-- The route literals of the examples. -/
def str (s : String) : Str := s.toList

/-- The call `strings.Split(route, "/")`: all pieces between slashes. -/
def splitAll : Str → List Str
  | [] => [[]]
  | c :: cs =>
    if c = '/' then [] :: splitAll cs
    else
      match splitAll cs with
      | [] => [[c]]
      | s :: ss => (c :: s) :: ss

/-- The segments of a route: its non-empty pieces between slashes, in order. -/
def segments (route : Str) : List Str :=
  (splitAll route).filter (fun s => decide (s ≠ []))

/-- The levels of a lookup, with a fuel argument: at each level the head
segment and the right-trimmed route that remains at that level. -/
def levelsFuel : Nat → Str → List (Str × Str)
  | 0, _ => []
  | n + 1, route =>
    let route := normalize route
    if route = [] then []
    else ((split route).1, trimRight route) :: levelsFuel n (split route).2

/-- The levels of a lookup of `route`. -/
def levels (route : Str) : List (Str × Str) := levelsFuel (route.length + 1) route

/-- The recursion of `Add` read over the segments of the route. -/
def addSegs {V : Type} : RouteTrie V → List Str → Option V → RouteTrie V × Option AddError
  | t, [], value => (.mk t.children t.paramChild t.wildcardChild value, none)
  | t, [] :: _, _ => (t, some .indexOutOfRange)
  | t, (c :: name) :: rest, value =>
    if c = ':' then
      match t.paramChild with
      | none =>
        let r := addSegs NewRouteTrie rest value
        (.mk t.children (some (name, r.1)) t.wildcardChild t.value, r.2)
      | some (pname, ptrie) =>
        if pname ≠ name then (t, some .paramConflict)
        else
          let r := addSegs ptrie rest value
          (.mk t.children (some (pname, r.1)) t.wildcardChild t.value, r.2)
    else if c = '*' then
      (.mk t.children t.paramChild (some ⟨name, value⟩) t.value, none)
    else
      match mapGet t.children (c :: name) with
      | none =>
        let r := addSegs NewRouteTrie rest value
        (.mk (mapSet t.children (c :: name) r.1) t.paramChild t.wildcardChild t.value, r.2)
      | some nextNode =>
        let r := addSegs nextNode rest value
        (.mk (mapSet t.children (c :: name) r.1) t.paramChild t.wildcardChild t.value, r.2)

/-- The recursion of `getValue` read over the levels of the route. -/
def getSegs {V : Type} : RouteTrie V → List (Str × Str) → Params → Option V × Params
  | t, [], params => (t.value, params)
  | t, (head, rem) :: rest, params =>
    let r1 : Option V × Params :=
      match mapGet t.children head with
      | some childNode => getSegs childNode rest params
      | none => (none, params)
    match r1.1 with
    | some v => (some v, r1.2)
    | none =>
      let r2 : Option V × Params :=
        match t.paramChild with
        | some (pname, ptrie) =>
          let r := getSegs ptrie rest r1.2
          match r.1 with
          | some v => (some v, mapSet r.2 pname head)
          | none => (none, r.2)
        | none => (none, r1.2)
      match r2.1 with
      | some v => (some v, r2.2)
      | none =>
        match t.wildcardChild with
        | some w =>
          (w.value, if w.name ≠ [] then mapSet r2.2 w.name rem else r2.2)
        | none => (none, r2.2)

/-- A segment beginning with `:` declares a named parameter. -/
def isParam (s : Str) : Bool := decide (s.head? = some ':')

/-- A segment beginning with `*` declares a wildcard. -/
def isWildcard (s : Str) : Bool := decide (s.head? = some '*')

/-- A literal segment begins with neither `:` nor `*`. -/
def isLiteral (s : Str) : Bool := !isParam s && !isWildcard s

/-- Successive `Add` calls, errors ignored as in `TestRouteTrie`. -/
def addAll {V : Type} (t : RouteTrie V) : List (Str × Option V) → RouteTrie V
  | [] => t
  | (route, value) :: rest => addAll (Add t route value).1 rest

/-- The trie built by `TestRouteTrie` in `routetrie_test.go`. -/
def testTrie : RouteTrie Nat :=
  addAll NewRouteTrie
    [(str "example.com/foo", some 1), (str "example.com/foo/bar", some 2),
     (str "example.com/foo/:bar/baz", some 3), (str "example.com/*", some 4),
     (str "example.com/foo/*wildcard", some 5), (str "example.com/one/:two", some 6),
     (str "example.com/:one/two", some 7), (str "example.com/one/*two", some 8),
     (str "example.com/test/one/:two", some 9),
     (str "example.com/test/:one/two/three", some 10)]

/-- The query segments `qs` come from the pattern segments `ps` by replacing
each `:name` segment with some segment and keeping each literal segment. -/
def substitutes : List Str → List Str → Bool
  | [], [] => true
  | ps :: prest, qs :: qrest =>
    (isParam ps || (isLiteral ps && decide (qs = ps))) && substitutes prest qrest
  | _, _ => false

/-- The names of the `:name` segments of a pattern, in order. -/
def paramNames (ps : List Str) : List Str := (ps.filter isParam).map (fun s => s.drop 1)

/-- The bindings of a pattern against a query: each `:name` segment with the
query segment at its position, in order. -/
def captures : List Str → List Str → Params
  | ps :: prest, qs :: qrest =>
    if isParam ps then (ps.drop 1, qs) :: captures prest qrest else captures prest qrest
  | _, _ => []

/-- The route `s1/s2/.../sk/rest`: each segment of `P` followed by a slash,
then `rest`. -/
def joinSlash (P : List Str) (rest : Str) : Str :=
  P.foldr (fun s acc => s ++ '/' :: acc) rest

/-- The lookup segments `qs` match the segments `ps` of a registered route:
a literal segment equals the segment at its position, a `:` segment stands for
exactly one segment, a `*` segment stands for one or more remaining segments
and ends the registered route, and otherwise both end together. -/
def matchSegs : List Str → List Str → Bool
  | [], [] => true
  | [], _ :: _ => false
  | ps :: prest, qs =>
    if isWildcard ps then !qs.isEmpty
    else
      match qs with
      | [] => false
      | q :: qrest => (isParam ps || decide (ps = q)) && matchSegs prest qrest

/-- The lookup route `q` matches the registered route `r`. -/
def routeMatches (r q : Str) : Bool := matchSegs (segments r) (segments q)

/-- The routes whose `Add` returned no error, in a sequence of `Add` calls
starting from the trie `t`. -/
def okRoutes {V : Type} (t : RouteTrie V) : List (Str × Option V) → List Str
  | [] => []
  | (route, value) :: rest =>
    if (Add t route value).2 = none then route :: okRoutes (Add t route value).1 rest
    else okRoutes (Add t route value).1 rest

/-- Consuming the segments from the node `t`, some `:name` segment that comes
before any `*` segment arrives at an already existing node whose parameter
child has a name different from `name`. -/
def conflictAt {V : Type} : RouteTrie V → List Str → Bool
  | _, [] => false
  | t, s :: rest =>
    if isWildcard s then false
    else if isParam s then
      match t.paramChild with
      | none => false
      | some (pname, ptrie) => decide (pname ≠ s.drop 1) || conflictAt ptrie rest
    else
      match mapGet t.children s with
      | none => false
      | some child => conflictAt child rest

/-- The pure recursive lookup of the specification, over the levels of the
route: it returns an optional pair of a value and its bindings, and builds the
bindings only from successful sub-results. -/
def pureSegs {V : Type} : RouteTrie V → List (Str × Str) → Option (V × Params)
  | t, [] =>
    match t.value with
    | some v => some (v, [])
    | none => none
  | t, (head, rem) :: rest =>
    let lit : Option (V × Params) :=
      match mapGet t.children head with
      | some childNode => pureSegs childNode rest
      | none => none
    match lit with
    | some r => some r
    | none =>
      let par : Option (V × Params) :=
        match t.paramChild with
        | some (pname, ptrie) =>
          match pureSegs ptrie rest with
          | some r => some (r.1, mapSet r.2 pname head)
          | none => none
        | none => none
      match par with
      | some r => some r
      | none =>
        match t.wildcardChild with
        | some w =>
          match w.value with
          | some v => some (v, if w.name ≠ [] then mapSet [] w.name rem else [])
          | none => none
        | none => none

/-- The pure lookup of a route. -/
def GetPure {V : Type} (t : RouteTrie V) (route : Str) : Option (V × Params) :=
  pureSegs t (levels route)

/-- No wildcard child of the trie, at any depth, holds a nil value. -/
inductive NoNilWildcard {V : Type} : RouteTrie V → Prop where
  | mk (children : GoMap (RouteTrie V)) (pc : Option (Str × RouteTrie V))
      (wc : Option (wildcardChild V)) (value : Option V) :
      (∀ e ∈ children, NoNilWildcard e.2) →
      (∀ x, pc = some x → NoNilWildcard x.2) →
      (∀ w, wc = some w → w.value ≠ none) →
      NoNilWildcard (.mk children pc wc value)

/-- A nil value registered under a wildcard, next to a parameter route. -/
def nilWildcardTrie : RouteTrie Nat :=
  addAll NewRouteTrie [(str "a/*w", none), (str ":p/b", some 1)]

/-- An edge of the trie: a literal child under its key, or the parameter child. -/
inductive Edge where
  | lit (key : Str)
  | param
  deriving DecidableEq

/-- The node found from `t` along a path of edges, if there is one. -/
def nodeAt {V : Type} : RouteTrie V → List Edge → Option (RouteTrie V)
  | t, [] => some t
  | t, Edge.lit key :: rest =>
    match mapGet t.children key with
    | some child => nodeAt child rest
    | none => none
  | t, Edge.param :: rest =>
    match t.paramChild with
    | some (_, ptrie) => nodeAt ptrie rest
    | none => none

/-- The edge a segment of a route follows: the parameter edge for a `:name`
segment, the literal edge under the segment itself otherwise. -/
def edgeOf (s : Str) : Edge := if isParam s then Edge.param else Edge.lit s

/-- The path of edges followed by a sequence of segments. -/
def pathOf (P : List Str) : List Edge := P.map edgeOf

/-- The existing node reached from `t` by the segments `P` as `Add` consumes
them: a literal segment needs the literal child under that key, a `:name`
segment needs a parameter child of that same name, a `*` segment reaches none. -/
def walk {V : Type} : RouteTrie V → List Str → Option (RouteTrie V)
  | t, [] => some t
  | t, s :: rest =>
    if isWildcard s then none
    else if isParam s then
      match t.paramChild with
      | some (pname, ptrie) => if pname = s.drop 1 then walk ptrie rest else none
      | none => none
    else
      match mapGet t.children s with
      | some child => walk child rest
      | none => none

/-- What a node holds of its own: the keys of its literal children, the name of
its parameter child, its wildcard child and its stored value. -/
structure NodeData (V : Type) where
  keys : List Str
  paramName : Option Str
  wildcard : Option (wildcardChild V)
  value : Option V

/-- The own data of a node. -/
def nodeData {V : Type} (t : RouteTrie V) : NodeData V :=
  ⟨t.children.map Prod.fst, t.paramChild.map Prod.fst, t.wildcardChild, t.value⟩

/-- The three overlapping routes of the test, registered at the root. -/
def overlapTrie : RouteTrie Nat :=
  addAll NewRouteTrie
    [(str "one/:two", some 6), (str ":one/two", some 7), (str "one/*two", some 8)]

/-! ## Routes: `normalize`, `split` and segments -/

theorem normalize_nil : normalize [] = [] := rfl

theorem normalize_slash (cs : Str) : normalize ('/' :: cs) = normalize cs := by
  simp [normalize, List.dropWhile]

theorem normalize_cons_ne (c : Char) (cs : Str) (h : c ≠ '/') :
    normalize (c :: cs) = c :: cs := by
  simp [normalize, List.dropWhile, h]

theorem normalize_cases (r : Str) :
    normalize r = [] ∨ ∃ c cs, c ≠ '/' ∧ normalize r = c :: cs := by
  induction r with
  | nil => exact Or.inl rfl
  | cons c cs ih =>
    by_cases h : c = '/'
    · subst h; rw [normalize_slash]; exact ih
    · exact Or.inr ⟨c, cs, h, normalize_cons_ne c cs h⟩

theorem normalize_length_le (r : Str) : (normalize r).length ≤ r.length := by
  induction r with
  | nil => simp [normalize]
  | cons c cs ih =>
    by_cases h : c = '/'
    · subst h; rw [normalize_slash]; simp; omega
    · rw [normalize_cons_ne c cs h]

theorem split_nil : split [] = ([], []) := rfl

theorem split_slash (cs : Str) : split ('/' :: cs) = ([], cs) := by
  simp [split, indexSlash]

theorem split_cons_ne (c : Char) (cs : Str) (h : c ≠ '/') :
    split (c :: cs) = (c :: (split cs).1, (split cs).2) := by
  unfold split
  simp only [indexSlash, h, if_false]
  cases indexSlash cs <;> simp

theorem split_snd_length_le (r : Str) : (split r).2.length ≤ r.length := by
  induction r with
  | nil => simp [split_nil]
  | cons c cs ih =>
    by_cases h : c = '/'
    · subst h; rw [split_slash]; simp
    · rw [split_cons_ne c cs h]; simp; omega

theorem split_snd_length_lt (r : Str) (h : r ≠ []) : (split r).2.length < r.length := by
  cases r with
  | nil => exact absurd rfl h
  | cons c cs =>
    by_cases hc : c = '/'
    · subst hc; rw [split_slash]; simp
    · rw [split_cons_ne c cs hc]; have := split_snd_length_le cs; simp; omega

theorem split_tail_lt (r : Str) (h : normalize r ≠ []) :
    (split (normalize r)).2.length < r.length :=
  Nat.lt_of_lt_of_le (split_snd_length_lt _ h) (normalize_length_le r)

theorem segments_slash (cs : Str) : segments ('/' :: cs) = segments cs := by
  simp [segments, splitAll]

theorem segments_normalize (r : Str) : segments (normalize r) = segments r := by
  induction r with
  | nil => rfl
  | cons c cs ih =>
    by_cases h : c = '/'
    · subst h; rw [normalize_slash, segments_slash]; exact ih
    · rw [normalize_cons_ne c cs h]

theorem splitAll_eq (r : Str) :
    ∃ ss, splitAll r = (split r).1 :: ss ∧
      ss.filter (fun s => decide (s ≠ [])) = segments (split r).2 := by
  induction r with
  | nil => exact ⟨[], rfl, rfl⟩
  | cons c cs ih =>
    by_cases h : c = '/'
    · subst h
      exact ⟨splitAll cs, by simp [splitAll, split_slash], by simp [split_slash, segments]⟩
    · obtain ⟨ss, h1, h2⟩ := ih
      refine ⟨ss, ?_, ?_⟩
      · simp [splitAll, h, h1, split_cons_ne c cs h]
      · rw [split_cons_ne c cs h]; exact h2

theorem segments_cons_ne (c : Char) (cs : Str) (h : c ≠ '/') :
    segments (c :: cs) = (split (c :: cs)).1 :: segments (split (c :: cs)).2 := by
  obtain ⟨ss, h1, h2⟩ := splitAll_eq (c :: cs)
  have hne : (split (c :: cs)).1 ≠ [] := by rw [split_cons_ne c cs h]; simp
  unfold segments
  rw [h1, List.filter_cons_of_pos (by simpa using hne), h2]
  rfl

/-- The segments of a route follow the recursion of the code: none when the
normalized route is empty, else the head of `split` and the segments of its tail. -/
theorem segments_unfold (r : Str) :
    segments r = if normalize r = [] then []
      else (split (normalize r)).1 :: segments (split (normalize r)).2 := by
  rcases normalize_cases r with h | ⟨c, cs, hc, h⟩
  · rw [if_pos h, ← segments_normalize, h]; rfl
  · rw [if_neg (by rw [h]; simp), ← segments_normalize r, h]
    exact segments_cons_ne c cs hc

theorem levelsFuel_eq (n m : Nat) : ∀ r : Str, r.length < n → r.length < m →
    levelsFuel n r = levelsFuel m r := by
  induction n generalizing m with
  | zero => intro r h; omega
  | succ n ih =>
    intro r hn hm
    cases m with
    | zero => omega
    | succ m =>
      simp only [levelsFuel]
      by_cases h : normalize r = []
      · simp [h]
      · have := split_tail_lt r h
        simp only [h, if_false]
        rw [ih m _ (by omega) (by omega)]

/-- The levels of a route follow the recursion of `getValue`. -/
theorem levels_unfold (r : Str) :
    levels r = if normalize r = [] then []
      else ((split (normalize r)).1, trimRight (normalize r)) ::
        levels (split (normalize r)).2 := by
  have hl : levels r = levelsFuel (r.length + 1) r := rfl
  rw [hl]
  simp only [levelsFuel]
  by_cases h : normalize r = []
  · simp [h]
  · have := split_tail_lt r h
    simp only [h, if_false]
    rw [levelsFuel_eq r.length ((split (normalize r)).2.length + 1) _ (by omega) (by omega)]
    rfl

theorem levels_map_fst_aux (n : Nat) : ∀ r : Str, r.length < n →
    (levels r).map Prod.fst = segments r := by
  induction n with
  | zero => intro r h; omega
  | succ n ih =>
    intro r hn
    rw [levels_unfold, segments_unfold]
    by_cases h : normalize r = []
    · simp [h]
    · have := split_tail_lt r h
      simp only [h, if_false, List.map_cons]
      rw [ih _ (by omega)]

theorem levels_map_fst (r : Str) : (levels r).map Prod.fst = segments r :=
  levels_map_fst_aux _ r (Nat.lt_succ_self _)

/-! ## The fuel is enough: `Add` and `getValue` over segments -/

theorem AddFuel_eq_addSegs {V : Type} (n : Nat) : ∀ (t : RouteTrie V) (route : Str)
    (value : Option V), route.length < n →
    AddFuel n t route value = addSegs t (segments route) value := by
  induction n with
  | zero => intro t route value h; omega
  | succ n ih =>
    intro t route value hn
    rw [segments_unfold]
    simp only [AddFuel]
    by_cases h : normalize route = []
    · simp [h, addSegs]
    · have hlt := split_tail_lt route h
      simp only [h, if_false]
      obtain ⟨c, cs, hc, hnorm⟩ := (normalize_cases route).resolve_left h
      rw [hnorm, split_cons_ne c cs hc] at hlt
      rw [hnorm, split_cons_ne c cs hc]
      simp only [addSegs]
      have hlt2 : (split cs).2.length < n := by
        have h2 : (split cs).2.length < route.length := hlt
        omega
      simp only [ih _ _ _ hlt2]

/-- The method `Add` is the segment recursion on the segments of the route. -/
theorem Add_eq_addSegs {V : Type} (t : RouteTrie V) (route : Str) (value : Option V) :
    Add t route value = addSegs t (segments route) value :=
  AddFuel_eq_addSegs _ t route value (Nat.lt_succ_self _)

theorem getValueFuel_eq_getSegs {V : Type} (n : Nat) : ∀ (t : RouteTrie V) (route : Str)
    (params : Params), route.length < n →
    getValueFuel n t route params = getSegs t (levels route) params := by
  induction n with
  | zero => intro t route params h; omega
  | succ n ih =>
    intro t route params hn
    rw [levels_unfold]
    simp only [getValueFuel]
    by_cases h : normalize route = []
    · simp [h, getSegs]
    · have hlt := split_tail_lt route h
      simp only [h, if_false]
      simp only [getSegs]
      simp only [ih _ _ _ (show (split (normalize route)).2.length < n by omega)]

/-- The method `getValue` is the level recursion on the levels of the route. -/
theorem getValue_eq_getSegs {V : Type} (t : RouteTrie V) (route : Str) (params : Params) :
    getValue t route params = getSegs t (levels route) params :=
  getValueFuel_eq_getSegs _ t route params (Nat.lt_succ_self _)

/-- Any fuel above the length of the route gives the result of `Add`. -/
theorem AddFuel_adequate {V : Type} (n : Nat) (t : RouteTrie V) (route : Str)
    (value : Option V) (h : route.length < n) :
    AddFuel n t route value = Add t route value := by
  rw [AddFuel_eq_addSegs n t route value h, Add_eq_addSegs]

/-- Any fuel above the length of the route gives the result of `getValue`. -/
theorem getValueFuel_adequate {V : Type} (n : Nat) (t : RouteTrie V) (route : Str)
    (params : Params) (h : route.length < n) :
    getValueFuel n t route params = getValue t route params := by
  rw [getValueFuel_eq_getSegs n t route params h, getValue_eq_getSegs]

/-- The method `Add` satisfies the recursion of the source, with no fuel. -/
theorem Add_unfold {V : Type} (t : RouteTrie V) (route : Str) (value : Option V) :
    Add t route value =
      if normalize route = [] then
        (.mk t.children t.paramChild t.wildcardChild value, none)
      else
        match split (normalize route) with
        | ([], _) => (t, some .indexOutOfRange)
        | (c :: name, tail) =>
          if c = ':' then
            match t.paramChild with
            | none =>
              (.mk t.children (some (name, (Add NewRouteTrie tail value).1)) t.wildcardChild
                t.value, (Add NewRouteTrie tail value).2)
            | some (pname, ptrie) =>
              if pname ≠ name then (t, some .paramConflict)
              else
                (.mk t.children (some (pname, (Add ptrie tail value).1)) t.wildcardChild
                  t.value, (Add ptrie tail value).2)
          else if c = '*' then
            (.mk t.children t.paramChild (some ⟨name, value⟩) t.value, none)
          else
            match mapGet t.children (c :: name) with
            | none =>
              (.mk (mapSet t.children (c :: name) (Add NewRouteTrie tail value).1)
                t.paramChild t.wildcardChild t.value, (Add NewRouteTrie tail value).2)
            | some nextNode =>
              (.mk (mapSet t.children (c :: name) (Add nextNode tail value).1)
                t.paramChild t.wildcardChild t.value, (Add nextNode tail value).2) := by
  show AddFuel (route.length + 1) t route value = _
  simp only [AddFuel]
  by_cases h : normalize route = []
  · simp only [h, if_true]
  · have hlt := split_tail_lt route h
    simp only [h, if_false]
    rcases hs : split (normalize route) with ⟨hd, tail⟩
    rw [hs] at hlt
    cases hd with
    | nil => rfl
    | cons c name => simp only [AddFuel_adequate _ _ _ _ hlt]

/-- The method `getValue` satisfies the recursion of the source, with no fuel. -/
theorem getValue_unfold {V : Type} (t : RouteTrie V) (route : Str) (params : Params) :
    getValue t route params =
      if normalize route = [] then (t.value, params)
      else
        let head := (split (normalize route)).1
        let tail := (split (normalize route)).2
        let r1 : Option V × Params :=
          match mapGet t.children head with
          | some childNode => getValue childNode tail params
          | none => (none, params)
        match r1.1 with
        | some v => (some v, r1.2)
        | none =>
          let r2 : Option V × Params :=
            match t.paramChild with
            | some (pname, ptrie) =>
              let r := getValue ptrie tail r1.2
              match r.1 with
              | some v => (some v, mapSet r.2 pname head)
              | none => (none, r.2)
            | none => (none, r1.2)
          match r2.1 with
          | some v => (some v, r2.2)
          | none =>
            match t.wildcardChild with
            | some w =>
              (w.value,
                if w.name ≠ [] then mapSet r2.2 w.name (trimRight (normalize route)) else r2.2)
            | none => (none, r2.2) := by
  show getValueFuel (route.length + 1) t route params = _
  simp only [getValueFuel]
  by_cases h : normalize route = []
  · simp only [h, if_true]
  · have hlt := split_tail_lt route h
    simp only [h, if_false, getValueFuel_adequate _ _ _ _ hlt]

/-- The lookups of `TestRouteTrie`, on the trie holding all the routes of the
test: the embedding returns the values and parameters the test expects. -/
theorem testTrie_lookups :
    Get testTrie (str "example.com/foo") = (some 1, some []) ∧
    Get testTrie (str "example.com/foo/bar") = (some 2, some []) ∧
    Get testTrie (str "example.com/foo/bar/baz") = (some 3, some [(str "bar", str "bar")]) ∧
    Get testTrie (str "example.com/abc/def") = (some 4, some []) ∧
    Get testTrie (str "example.com/foo/blahblahblah")
      = (some 5, some [(str "wildcard", str "blahblahblah")]) ∧
    Get testTrie (str "example.com/one/two") = (some 6, some [(str "two", str "two")]) ∧
    Get testTrie (str "example.com/test/one/two/three")
      = (some 10, some [(str "one", str "one")]) :=
  ⟨by decide, by decide, by decide, by decide, by decide, by decide, by decide⟩

/-! ## Maps and fields -/

@[simp] theorem children_mk {V : Type} (c : GoMap (RouteTrie V)) (p : Option (Str × RouteTrie V))
    (w : Option (wildcardChild V)) (v : Option V) : (RouteTrie.mk c p w v).children = c := rfl

@[simp] theorem paramChild_mk {V : Type} (c : GoMap (RouteTrie V))
    (p : Option (Str × RouteTrie V)) (w : Option (wildcardChild V)) (v : Option V) :
    (RouteTrie.mk c p w v).paramChild = p := rfl

@[simp] theorem wildcardChild_mk {V : Type} (c : GoMap (RouteTrie V))
    (p : Option (Str × RouteTrie V)) (w : Option (wildcardChild V)) (v : Option V) :
    (RouteTrie.mk c p w v).wildcardChild = w := rfl

@[simp] theorem value_mk {V : Type} (c : GoMap (RouteTrie V)) (p : Option (Str × RouteTrie V))
    (w : Option (wildcardChild V)) (v : Option V) : (RouteTrie.mk c p w v).value = v := rfl

theorem mk_eta {V : Type} (t : RouteTrie V) :
    RouteTrie.mk t.children t.paramChild t.wildcardChild t.value = t := by
  cases t; rfl

theorem mapGet_mapSet_same {α : Type} (m : GoMap α) (k : Str) (a : α) :
    mapGet (mapSet m k a) k = some a := by
  induction m with
  | nil => simp [mapSet, mapGet]
  | cons e rest ih =>
    obtain ⟨k', a'⟩ := e
    by_cases h : k' = k
    · simp [mapSet, mapGet, h]
    · simp [mapSet, mapGet, h, ih]

theorem mapGet_mapSet_ne {α : Type} (m : GoMap α) (k k2 : Str) (a : α) (h : k ≠ k2) :
    mapGet (mapSet m k a) k2 = mapGet m k2 := by
  induction m with
  | nil => simp [mapSet, mapGet, h]
  | cons e rest ih =>
    obtain ⟨k', a'⟩ := e
    by_cases h1 : k' = k
    · subst h1; simp [mapSet, mapGet, h]
    · by_cases h2 : k' = k2
      · subst h2; simp [mapSet, mapGet, h1]
      · simp [mapSet, mapGet, h1, h2, ih]

theorem mapSet_mapGet_self {α : Type} (m : GoMap α) (k : Str) (a : α)
    (h : mapGet m k = some a) : mapSet m k a = m := by
  induction m with
  | nil => simp [mapGet] at h
  | cons e rest ih =>
    obtain ⟨k', a'⟩ := e
    by_cases h1 : k' = k
    · subst h1; simp [mapGet] at h; simp [mapSet, h]
    · simp [mapGet, h1] at h; simp [mapSet, h1, ih h]

/-! ## The value returned by a lookup -/

/-- The value a lookup returns does not depend on the contents of `params`. -/
theorem getSegs_fst_params {V : Type} (l : List (Str × Str)) :
    ∀ (t : RouteTrie V) (p q : Params), (getSegs t l p).1 = (getSegs t l q).1 := by
  induction l with
  | nil => intro t p q; rfl
  | cons hd rest ih =>
    intro t p q
    obtain ⟨head, rem⟩ := hd
    simp only [getSegs]
    cases hm : mapGet t.children head with
    | none =>
      simp only []
      cases hp : t.paramChild with
      | none => simp only []; cases t.wildcardChild <;> rfl
      | some pc =>
        obtain ⟨pname, ptrie⟩ := pc
        simp only []
        have e := ih ptrie p q
        generalize getSegs ptrie rest p = x at e ⊢
        generalize getSegs ptrie rest q = y at e ⊢
        obtain ⟨xv, xp⟩ := x
        obtain ⟨yv, yp⟩ := y
        simp only at e
        subst e
        cases xv with
        | some v => rfl
        | none => simp only []; cases t.wildcardChild <;> rfl
    | some c =>
      simp only []
      have e := ih c p q
      generalize getSegs c rest p = x at e ⊢
      generalize getSegs c rest q = y at e ⊢
      obtain ⟨xv, xp⟩ := x
      obtain ⟨yv, yp⟩ := y
      simp only at e
      subst e
      cases xv with
      | some v => rfl
      | none =>
        simp only []
        cases hp : t.paramChild with
        | none => simp only []; cases t.wildcardChild <;> rfl
        | some pc =>
          obtain ⟨pname, ptrie⟩ := pc
          simp only []
          have e := ih ptrie xp yp
          generalize getSegs ptrie rest xp = x at e ⊢
          generalize getSegs ptrie rest yp = y at e ⊢
          obtain ⟨xv, xp2⟩ := x
          obtain ⟨yv, yp2⟩ := y
          simp only at e
          subst e
          cases xv with
          | some v => rfl
          | none => simp only []; cases t.wildcardChild <;> rfl

/-- The value of a lookup at one level, from the values of the lookups below:
the literal child first, then the parameter child, then the wildcard child. -/
theorem getSegs_fst_cons {V : Type} (t : RouteTrie V) (head rem : Str)
    (rest : List (Str × Str)) (p p1 p2 : Params) :
    (getSegs t ((head, rem) :: rest) p).1 =
      match (mapGet t.children head).bind (fun child => (getSegs child rest p1).1) with
      | some v => some v
      | none =>
        match t.paramChild.bind (fun pc => (getSegs pc.2 rest p2).1) with
        | some v => some v
        | none =>
          match t.wildcardChild with
          | some w => w.value
          | none => none := by
  simp only [getSegs]
  cases hm : mapGet t.children head with
  | none =>
    simp only [Option.bind]
    cases hp : t.paramChild with
    | none => simp only [Option.bind]; cases t.wildcardChild <;> rfl
    | some pc =>
      obtain ⟨pname, ptrie⟩ := pc
      simp only [Option.bind]
      rw [getSegs_fst_params rest ptrie p2 p]
      generalize getSegs ptrie rest p = x
      obtain ⟨xv, xp⟩ := x
      cases xv with
      | some v => rfl
      | none => simp only []; cases t.wildcardChild <;> rfl
  | some c =>
    simp only [Option.bind]
    rw [getSegs_fst_params rest c p1 p]
    generalize getSegs c rest p = x
    obtain ⟨xv, xp⟩ := x
    cases xv with
    | some v => rfl
    | none =>
      simp only []
      cases hp : t.paramChild with
      | none => simp only [Option.bind]; cases t.wildcardChild <;> rfl
      | some pc =>
        obtain ⟨pname, ptrie⟩ := pc
        simp only [Option.bind]
        rw [getSegs_fst_params rest ptrie p2 xp]
        generalize getSegs ptrie rest xp = x
        obtain ⟨xv, xp2⟩ := x
        cases xv with
        | some v => rfl
        | none => simp only []; cases t.wildcardChild <;> rfl

/-! ## C1: precedence -/

/-- C1. Precedence law at every node: for every node `t` and every remaining
route whose first segment is `h` and whose rest is `T`, the value returned by the
lookup at `t` is the value of looking `T` up in the literal child for `h` when
that child exists and that value is present; otherwise the value of looking `T`
up in the parameter child when it exists and that value is present; otherwise
the stored value of the wildcard child when there is one; otherwise absent.
The contents of the `params` map (`params`, `p1`, `p2`) play no part. -/
theorem getValue_precedence {V : Type} (t : RouteTrie V) (route h T : Str)
    (params p1 p2 : Params)
    (hne : normalize route ≠ []) (hs : split (normalize route) = (h, T)) :
    (getValue t route params).1 =
      match (mapGet t.children h).bind (fun child => (getValue child T p1).1) with
      | some v => some v
      | none =>
        match t.paramChild.bind (fun pc => (getValue pc.2 T p2).1) with
        | some v => some v
        | none =>
          match t.wildcardChild with
          | some w => w.value
          | none => none := by
  simp only [getValue_eq_getSegs]
  rw [levels_unfold route, if_neg hne, hs]
  exact getSegs_fst_cons t h _ _ params p1 p2

/-- Witness of C1 on the three overlapping routes of the test: the route
`/one/two` takes the literal child `one` (value 6), not the parameter child
(value 7) nor the wildcard. -/
theorem getValue_precedence_witness :
    normalize (str "/one/two") ≠ [] ∧
    split (normalize (str "/one/two")) = (str "one", str "two") ∧
    (getValue overlapTrie (str "/one/two") []).1 = some 6 :=
  ⟨by decide, by decide,
    (getValue_precedence overlapTrie (str "/one/two") (str "one") (str "two") [] [] []
      (by decide) (by decide)).trans (by decide)⟩

/-! ## C2: literal add-then-get -/

theorem mem_segments_ne_nil {r s : Str} (h : s ∈ segments r) : s ≠ [] := by
  unfold segments at h
  simpa using (List.mem_filter.1 h).2

theorem isLiteral_cons (c : Char) (name : Str) :
    isLiteral (c :: name) = true ↔ c ≠ ':' ∧ c ≠ '*' := by
  simp [isLiteral, isParam, isWildcard]

theorem addSegs_literal_get {V : Type} (v : V) : ∀ (segs : List Str) (lv : List (Str × Str)),
    lv.map Prod.fst = segs → (∀ s ∈ segs, s ≠ [] ∧ isLiteral s = true) →
    ∀ (t : RouteTrie V) (p : Params),
      (addSegs t segs (some v)).2 = none ∧
      getSegs (addSegs t segs (some v)).1 lv p = (some v, p) := by
  intro segs
  induction segs with
  | nil =>
    intro lv hlv _ t p
    have : lv = [] := by simpa using hlv
    subst this
    simp [addSegs, getSegs]
  | cons s rest ih =>
    intro lv hlv hall t p
    cases lv with
    | nil => simp at hlv
    | cons e lv2 =>
      obtain ⟨h, rem⟩ := e
      simp only [List.map_cons, List.cons.injEq] at hlv
      obtain ⟨hh, hlv2⟩ := hlv
      subst hh
      have hs := hall h (List.mem_cons_self _ _)
      have hrest : ∀ s ∈ rest, s ≠ [] ∧ isLiteral s = true :=
        fun s hs => hall s (List.mem_cons_of_mem _ hs)
      cases h with
      | nil => exact absurd rfl hs.1
      | cons c name =>
        obtain ⟨hc1, hc2⟩ := (isLiteral_cons c name).1 hs.2
        simp only [addSegs, hc1, hc2, if_false]
        cases mapGet t.children (c :: name) with
        | none =>
          obtain ⟨e1, e2⟩ := ih lv2 hlv2 hrest NewRouteTrie p
          simp only [getSegs, children_mk, mapGet_mapSet_same, e1, e2, and_self]
        | some child =>
          obtain ⟨e1, e2⟩ := ih lv2 hlv2 hrest child p
          simp only [getSegs, children_mk, mapGet_mapSet_same, e1, e2, and_self]

/-- C2. Literal add-then-get on any trie: for every trie `t` (reachable from
`NewRouteTrie` or not, whatever it already contains), every route `r` none of
whose segments begins with `:` or `*` (the routes with no segment, such as the
empty route and `/`, included) and every non-nil value `v`, `Add(r, v)` returns
no error and a following `Get(r)` returns exactly `v` together with a present,
empty mapping. -/
theorem add_get_literal {V : Type} (t : RouteTrie V) (r : Str) (v : V)
    (hlit : ∀ s ∈ segments r, isLiteral s = true) :
    (Add t r (some v)).2 = none ∧ Get (Add t r (some v)).1 r = (some v, some []) := by
  have h := addSegs_literal_get v (segments r) (levels r) (levels_map_fst r)
    (fun s hs => ⟨mem_segments_ne_nil hs, hlit s hs⟩) t []
  rw [← Add_eq_addSegs, ← getValue_eq_getSegs] at h
  refine ⟨h.1, ?_⟩
  simp only [Get, h.2]

/-- Witness of C2 on the trie of the test: re-adding `example.com/foo/bar`
with the new value 20 overwrites the value 2. -/
theorem add_get_literal_witness :
    (∀ s ∈ segments (str "example.com/foo/bar"), isLiteral s = true) ∧
    Get testTrie (str "example.com/foo/bar") = (some 2, some []) ∧
    (Add testTrie (str "example.com/foo/bar") (some 20)).2 = none ∧
    Get (Add testTrie (str "example.com/foo/bar") (some 20)).1 (str "example.com/foo/bar")
      = (some 20, some []) :=
  ⟨by decide, by decide,
    add_get_literal testTrie (str "example.com/foo/bar") 20 (by decide)⟩

/-! ## C3: parameter capture -/

theorem mapSet_fresh {α : Type} (m : GoMap α) (k : Str) (a : α)
    (h : k ∉ m.map Prod.fst) : mapSet m k a = m ++ [(k, a)] := by
  induction m with
  | nil => rfl
  | cons e rest ih =>
    obtain ⟨k', a'⟩ := e
    simp only [List.map_cons, List.mem_cons, not_or] at h
    simp [mapSet, Ne.symm h.1, ih h.2]

theorem foldr_mapSet_perm (l : Params) (h : (l.map Prod.fst).Nodup) :
    (l.foldr (fun kv m => mapSet m kv.1 kv.2) []).Perm l := by
  induction l with
  | nil => exact List.Perm.refl _
  | cons kv rest ih =>
    simp only [List.map_cons, List.nodup_cons] at h
    have ih2 := ih h.2
    have hk : kv.1 ∉ (rest.foldr (fun kv m => mapSet m kv.1 kv.2) []).map Prod.fst :=
      fun hm => h.1 ((ih2.map Prod.fst).mem_iff.1 hm)
    simp only [List.foldr_cons]
    rw [mapSet_fresh _ _ _ hk]
    exact (List.perm_append_comm).trans (List.Perm.cons _ ih2)

theorem captures_keys : ∀ (ps qs : List Str), substitutes ps qs = true →
    (captures ps qs).map Prod.fst = paramNames ps := by
  intro ps
  induction ps with
  | nil => intro qs _; cases qs <;> rfl
  | cons s rest ih =>
    intro qs h
    cases qs with
    | nil => simp [substitutes] at h
    | cons q qrest =>
      simp only [substitutes, Bool.and_eq_true] at h
      by_cases hp : isParam s = true
      · simp [captures, paramNames, hp, List.filter_cons]
        simpa [paramNames] using ih qrest h.2
      · simp [captures, paramNames, hp, List.filter_cons]
        simpa [paramNames] using ih qrest h.2

theorem addSegs_capture {V : Type} (v : V) : ∀ (ps qs : List Str) (lv : List (Str × Str)),
    lv.map Prod.fst = qs → (∀ s ∈ ps, s ≠ []) → substitutes ps qs = true →
    ∀ (p0 : Params),
      (addSegs (NewRouteTrie : RouteTrie V) ps (some v)).2 = none ∧
      getSegs (addSegs (NewRouteTrie : RouteTrie V) ps (some v)).1 lv p0 =
        (some v, (captures ps qs).foldr (fun kv m => mapSet m kv.1 kv.2) p0) := by
  intro ps
  induction ps with
  | nil =>
    intro qs lv hlv _ hsub p0
    cases qs with
    | cons q qrest => simp [substitutes] at hsub
    | nil =>
      have : lv = [] := by simpa using hlv
      subst this
      simp [addSegs, getSegs, captures]
  | cons s rest ih =>
    intro qs lv hlv hne hsub p0
    cases qs with
    | nil => simp [substitutes] at hsub
    | cons q qrest =>
      cases lv with
      | nil => simp at hlv
      | cons e lv2 =>
        obtain ⟨h, rem⟩ := e
        simp only [List.map_cons, List.cons.injEq] at hlv
        obtain ⟨hh, hlv2⟩ := hlv
        subst hh
        simp only [substitutes, Bool.and_eq_true, Bool.or_eq_true, decide_eq_true_eq] at hsub
        obtain ⟨hkind, hsub2⟩ := hsub
        have hrest : ∀ s ∈ rest, s ≠ [] := fun s hs => hne s (List.mem_cons_of_mem _ hs)
        obtain ⟨e1, e2⟩ := ih qrest lv2 hlv2 hrest hsub2 p0
        cases s with
        | nil => exact absurd rfl (hne [] (List.mem_cons_self _ _))
        | cons c name =>
          by_cases hc : c = ':'
          · subst hc
            simp only [addSegs, if_true, NewRouteTrie, paramChild_mk, children_mk, value_mk,
              wildcardChild_mk]
            simp only [NewRouteTrie] at e1 e2
            simp [getSegs, mapGet, e1, e2, captures, isParam]
          · have hlit : isLiteral (c :: name) = true ∧ h = c :: name := by
              rcases hkind with hk | hk
              · simp [isParam, hc] at hk
              · exact hk
            obtain ⟨hl, hq⟩ := hlit
            subst hq
            obtain ⟨hc1, hc2⟩ := (isLiteral_cons c name).1 hl
            simp only [addSegs, hc1, hc2, if_false, NewRouteTrie, paramChild_mk, children_mk,
              value_mk, wildcardChild_mk, mapGet]
            simp only [NewRouteTrie] at e1 e2
            simp [getSegs, mapGet, mapSet, e1, e2, captures, isParam, hc1]

/-- C3. Parameter capture: on a freshly constructed trie, for every route
pattern `pat` whose segments are literal segments and `:name` segments with
pairwise distinct names, and every non-nil value `v`, `Add(pat, v)` returns no
error, and `Get(q)` of every route `q` whose segments are those of `pat` with
each `:name` segment replaced by an arbitrary segment returns `v` with a
mapping whose entries are exactly the pairs of a parameter name and the segment
substituted for it. -/
theorem param_capture {V : Type} (pat q : Str) (v : V)
    (hsub : substitutes (segments pat) (segments q) = true)
    (hnames : (paramNames (segments pat)).Nodup) :
    (Add (NewRouteTrie : RouteTrie V) pat (some v)).2 = none ∧
    ∃ m, Get (Add (NewRouteTrie : RouteTrie V) pat (some v)).1 q = (some v, some m) ∧
      m.Perm (captures (segments pat) (segments q)) := by
  have h := addSegs_capture v (segments pat) (segments q) (levels q) (levels_map_fst q)
    (fun s hs => mem_segments_ne_nil hs) hsub []
  rw [← Add_eq_addSegs, ← getValue_eq_getSegs] at h
  refine ⟨h.1, (captures (segments pat) (segments q)).foldr
    (fun kv m => mapSet m kv.1 kv.2) [], by simp only [Get, h.2], ?_⟩
  apply foldr_mapSet_perm
  rw [captures_keys _ _ hsub]
  exact hnames

/-- Witness of C3: the parameter route of the test. -/
theorem param_capture_witness :
    substitutes (segments (str "example.com/foo/:bar/baz"))
      (segments (str "example.com/foo/X/baz")) = true ∧
    (paramNames (segments (str "example.com/foo/:bar/baz"))).Nodup ∧
    (Add (NewRouteTrie : RouteTrie Nat) (str "example.com/foo/:bar/baz") (some 3)).2 = none ∧
    ∃ m, Get (Add (NewRouteTrie : RouteTrie Nat) (str "example.com/foo/:bar/baz") (some 3)).1
        (str "example.com/foo/X/baz") = (some 3, some m) ∧
      m.Perm (captures (segments (str "example.com/foo/:bar/baz"))
        (segments (str "example.com/foo/X/baz"))) :=
  ⟨by decide, by decide,
    param_capture (str "example.com/foo/:bar/baz") (str "example.com/foo/X/baz") 3
      (by decide) (by decide)⟩

/-! ## C4: backtracking across depth -/

theorem addSegs_backtrack_base {V : Type} (a b c x y : Str) (u w : V)
    (ha : a ≠ [] ∧ isLiteral a = true) (hb : b ≠ [] ∧ isLiteral b = true)
    (hc : c ≠ [] ∧ isLiteral c = true) (ra rb rc : Str) (p0 : Params) :
    (addSegs (NewRouteTrie : RouteTrie V) [a, ':' :: y] (some u)).2 = none ∧
    (addSegs (addSegs (NewRouteTrie : RouteTrie V) [a, ':' :: y] (some u)).1
      [':' :: x, b, c] (some w)).2 = none ∧
    getSegs (addSegs (addSegs (NewRouteTrie : RouteTrie V) [a, ':' :: y] (some u)).1
      [':' :: x, b, c] (some w)).1 [(a, ra), (b, rb), (c, rc)] p0 =
        (some w, mapSet p0 x a) := by
  obtain ⟨ca, na, rfl⟩ := List.exists_cons_of_ne_nil ha.1
  obtain ⟨cb, nb, rfl⟩ := List.exists_cons_of_ne_nil hb.1
  obtain ⟨cc, nc, rfl⟩ := List.exists_cons_of_ne_nil hc.1
  obtain ⟨ha1, ha2⟩ := (isLiteral_cons ca na).1 ha.2
  obtain ⟨hb1, hb2⟩ := (isLiteral_cons cb nb).1 hb.2
  obtain ⟨hc1, hc2⟩ := (isLiteral_cons cc nc).1 hc.2
  simp [addSegs, getSegs, mapGet, mapSet, NewRouteTrie, ha1, ha2, hb1, hb2, hc1, hc2]

theorem addSegs_backtrack {V : Type} (a b c x y : Str) (u w : V)
    (ha : a ≠ [] ∧ isLiteral a = true) (hb : b ≠ [] ∧ isLiteral b = true)
    (hc : c ≠ [] ∧ isLiteral c = true) :
    ∀ (P : List Str) (lv : List (Str × Str)), (∀ s ∈ P, s ≠ [] ∧ isLiteral s = true) →
      lv.map Prod.fst = P ++ [a, b, c] → ∀ p0 : Params,
      (addSegs (NewRouteTrie : RouteTrie V) (P ++ [a, ':' :: y]) (some u)).2 = none ∧
      (addSegs (addSegs (NewRouteTrie : RouteTrie V) (P ++ [a, ':' :: y]) (some u)).1
        (P ++ [':' :: x, b, c]) (some w)).2 = none ∧
      getSegs (addSegs (addSegs (NewRouteTrie : RouteTrie V) (P ++ [a, ':' :: y]) (some u)).1
        (P ++ [':' :: x, b, c]) (some w)).1 lv p0 = (some w, mapSet p0 x a) := by
  intro P
  induction P with
  | nil =>
    intro lv _ hlv p0
    match lv, hlv with
    | [(a2, ra), (b2, rb), (c2, rc)], hlv =>
      simp only [List.map_cons, List.map_nil, List.nil_append, List.cons.injEq, and_true] at hlv
      obtain ⟨rfl, rfl, rfl⟩ := hlv
      exact addSegs_backtrack_base _ _ _ x y u w ha hb hc ra rb rc p0
  | cons s rest ih =>
    intro lv hP hlv p0
    cases lv with
    | nil => simp at hlv
    | cons e lv2 =>
      obtain ⟨h, rem⟩ := e
      simp only [List.map_cons, List.cons_append, List.cons.injEq] at hlv
      obtain ⟨hh, hlv2⟩ := hlv
      subst hh
      have hs := hP h (List.mem_cons_self _ _)
      obtain ⟨e1, e2, e3⟩ := ih lv2 (fun s hs => hP s (List.mem_cons_of_mem _ hs)) hlv2 p0
      obtain ⟨ch, nh, rfl⟩ := List.exists_cons_of_ne_nil hs.1
      obtain ⟨h1, h2⟩ := (isLiteral_cons ch nh).1 hs.2
      rw [List.cons_append, List.cons_append]
      generalize rest ++ [a, ':' :: y] = A at e1 e2 e3 ⊢
      generalize rest ++ [':' :: x, b, c] = B at e2 e3 ⊢
      simp only [addSegs, h1, h2, if_false, NewRouteTrie, children_mk,
        paramChild_mk, wildcardChild_mk, value_mk, mapGet, mapSet, if_true]
      simp only [NewRouteTrie] at e1 e2 e3
      simp only [getSegs, children_mk, mapGet, if_true, e1, e2, e3, and_self]

/-- C4. Backtracking across depth: on a freshly constructed trie, for every
sequence `P` of literal segments, all literal segments `a`, `b`, `c`, all
parameter names `x`, `y` and all non-nil values `u`, `w`: after `Add` of a route
with segments `P, a, :y` (value `u`) and `Add` of a route with segments
`P, :x, b, c` (value `w`), both without error, `Get` of a route with segments
`P, a, b, c` returns `w`, and the returned mapping is exactly `x -> a`, with no
entry for `y`. -/
theorem backtracking_across_depth {V : Type} (r1 r2 q : Str) (P : List Str)
    (a b c x y : Str) (u w : V)
    (hP : ∀ s ∈ P, isLiteral s = true) (ha : isLiteral a = true)
    (hb : isLiteral b = true) (hc : isLiteral c = true)
    (h1 : segments r1 = P ++ [a, ':' :: y]) (h2 : segments r2 = P ++ [':' :: x, b, c])
    (hq : segments q = P ++ [a, b, c]) :
    (Add (NewRouteTrie : RouteTrie V) r1 (some u)).2 = none ∧
    (Add (Add (NewRouteTrie : RouteTrie V) r1 (some u)).1 r2 (some w)).2 = none ∧
    Get (Add (Add (NewRouteTrie : RouteTrie V) r1 (some u)).1 r2 (some w)).1 q
      = (some w, some [(x, a)]) := by
  have hmem : ∀ s ∈ P ++ [a, b, c], s ≠ [] := fun s hs =>
    mem_segments_ne_nil (r := q) (hq ▸ hs)
  have h := addSegs_backtrack a b c x y u w
    ⟨hmem a (by simp), ha⟩ ⟨hmem b (by simp), hb⟩ ⟨hmem c (by simp), hc⟩ P (levels q)
    (fun s hs => ⟨hmem s (by simp [hs]), hP s hs⟩) (by rw [levels_map_fst, hq]) []
  rw [← h1, ← h2, ← Add_eq_addSegs, ← Add_eq_addSegs, ← getValue_eq_getSegs] at h
  refine ⟨h.1, h.2.1, ?_⟩
  simp only [Get, h.2.2]
  rfl

/-- Witness of C4: the two routes of the test that walk up and back down. -/
theorem backtracking_across_depth_witness :
    (∀ s ∈ [str "example.com", str "test"], isLiteral s = true) ∧
    segments (str "example.com/test/one/:two") =
      [str "example.com", str "test"] ++ [str "one", ':' :: str "two"] ∧
    segments (str "example.com/test/:one/two/three") =
      [str "example.com", str "test"] ++ [':' :: str "one", str "two", str "three"] ∧
    segments (str "example.com/test/one/two/three") =
      [str "example.com", str "test"] ++ [str "one", str "two", str "three"] ∧
    Get (Add (Add (NewRouteTrie : RouteTrie Nat) (str "example.com/test/one/:two") (some 9)).1
      (str "example.com/test/:one/two/three") (some 10)).1
      (str "example.com/test/one/two/three") = (some 10, some [(str "one", str "one")]) :=
  ⟨by decide, by decide, by decide, by decide,
    (backtracking_across_depth (str "example.com/test/one/:two")
      (str "example.com/test/:one/two/three") (str "example.com/test/one/two/three")
      [str "example.com", str "test"] (str "one") (str "two") (str "three")
      (str "one") (str "two") 9 10 (by decide) (by decide) (by decide) (by decide)
      (by decide) (by decide) (by decide)).2.2⟩

/-! ## C5 and C6: wildcards -/

theorem split_fst_no_slash (r : Str) : '/' ∉ (split r).1 := by
  induction r with
  | nil => simp [split_nil]
  | cons c cs ih =>
    by_cases h : c = '/'
    · subst h; simp [split_slash]
    · rw [split_cons_ne c cs h]
      simp only [List.mem_cons, not_or]
      exact ⟨fun e => h e.symm, ih⟩

theorem mem_segments_no_slash_aux (n : Nat) : ∀ r : Str, r.length < n →
    ∀ s ∈ segments r, '/' ∉ s := by
  induction n with
  | zero => intro r h; omega
  | succ n ih =>
    intro r hn s hs
    rw [segments_unfold] at hs
    by_cases h : normalize r = []
    · simp [h] at hs
    · have := split_tail_lt r h
      simp only [h, if_false, List.mem_cons] at hs
      rcases hs with rfl | hs
      · exact split_fst_no_slash _
      · exact ih _ (by omega) s hs

theorem mem_segments_no_slash {r s : Str} (h : s ∈ segments r) : '/' ∉ s :=
  mem_segments_no_slash_aux _ r (Nat.lt_succ_self _) s h

theorem split_append_slash (s acc : Str) (h : '/' ∉ s) :
    split (s ++ '/' :: acc) = (s, acc) := by
  induction s with
  | nil => simp [split_slash]
  | cons c cs ih =>
    simp only [List.mem_cons, not_or] at h
    rw [List.cons_append, split_cons_ne c _ (fun e => h.1 e.symm), ih h.2]

theorem levels_append_slash (s acc : Str) (hne : s ≠ []) (h : '/' ∉ s) :
    levels (s ++ '/' :: acc) = (s, trimRight (s ++ '/' :: acc)) :: levels acc := by
  obtain ⟨c, cs, rfl⟩ := List.exists_cons_of_ne_nil hne
  have hc : c ≠ '/' := fun e => h (by simp [e])
  rw [levels_unfold]
  have hn : normalize (c :: cs ++ '/' :: acc) = c :: cs ++ '/' :: acc := by
    rw [List.cons_append]; exact normalize_cons_ne c _ hc
  rw [hn, if_neg (by simp), split_append_slash _ _ h]

theorem normalize_ne_nil (rest : Str) (h : ∃ c ∈ rest, c ≠ '/') : normalize rest ≠ [] := by
  induction rest with
  | nil => simp at h
  | cons c cs ih =>
    by_cases hc : c = '/'
    · subst hc
      rw [normalize_slash]
      apply ih
      obtain ⟨d, hd, hd2⟩ := h
      simp only [List.mem_cons] at hd
      rcases hd with rfl | hd
      · exact absurd rfl hd2
      · exact ⟨d, hd, hd2⟩
    · rw [normalize_cons_ne c cs hc]; simp

/-- The levels of `s1/.../sk/rest`: one level per segment of `P`, then the
levels of `rest`, whose first level holds the trimmed `rest`. -/
theorem levels_joinSlash (rest : Str) (hrest : ∃ c ∈ rest, c ≠ '/') :
    ∀ P : List Str, (∀ s ∈ P, s ≠ [] ∧ '/' ∉ s) →
    ∃ lvP more, lvP.map Prod.fst = P ∧
      levels (joinSlash P rest) = lvP ++
        ((split (normalize rest)).1, trimRight (normalize rest)) :: more := by
  intro P
  induction P with
  | nil =>
    intro _
    refine ⟨[], levels (split (normalize rest)).2, rfl, ?_⟩
    show levels rest = _
    rw [levels_unfold, if_neg (normalize_ne_nil rest hrest)]
    rfl
  | cons s P ih =>
    intro hP
    obtain ⟨lvP, more, h1, h2⟩ := ih (fun s hs => hP s (List.mem_cons_of_mem _ hs))
    obtain ⟨hne, hsl⟩ := hP s (List.mem_cons_self _ _)
    refine ⟨(s, trimRight (s ++ '/' :: joinSlash P rest)) :: lvP, more, by simp [h1], ?_⟩
    show levels (s ++ '/' :: joinSlash P rest) = _
    rw [levels_append_slash s _ hne hsl, h2]
    rfl

theorem addSegs_wildcard_get {V : Type} (n : Str) (v : V) (h rem : Str)
    (more : List (Str × Str)) :
    ∀ (P : List Str) (lvP : List (Str × Str)), lvP.map Prod.fst = P →
      (∀ s ∈ P, s ≠ [] ∧ isLiteral s = true) → ∀ p0 : Params,
      (addSegs (NewRouteTrie : RouteTrie V) (P ++ [('*' :: n)]) (some v)).2 = none ∧
      getSegs (addSegs (NewRouteTrie : RouteTrie V) (P ++ [('*' :: n)]) (some v)).1
        (lvP ++ (h, rem) :: more) p0 = (some v, if n ≠ [] then mapSet p0 n rem else p0) := by
  intro P
  induction P with
  | nil =>
    intro lvP hlv _ p0
    have : lvP = [] := by simpa using hlv
    subst this
    simp [addSegs, getSegs, mapGet, NewRouteTrie]
  | cons s rest ih =>
    intro lvP hlv hP p0
    cases lvP with
    | nil => simp at hlv
    | cons e lv2 =>
      obtain ⟨hd, r0⟩ := e
      simp only [List.map_cons, List.cons.injEq] at hlv
      obtain ⟨hh, hlv2⟩ := hlv
      subst hh
      have hs := hP hd (List.mem_cons_self _ _)
      obtain ⟨e1, e2⟩ := ih lv2 hlv2 (fun s hs => hP s (List.mem_cons_of_mem _ hs)) p0
      obtain ⟨ch, nh, rfl⟩ := List.exists_cons_of_ne_nil hs.1
      obtain ⟨h1, h2⟩ := (isLiteral_cons ch nh).1 hs.2
      rw [List.cons_append, List.cons_append]
      generalize rest ++ [('*' :: n)] = A at e1 e2 ⊢
      generalize lv2 ++ (h, rem) :: more = L at e2 ⊢
      simp only [addSegs, h1, h2, if_false, NewRouteTrie, children_mk,
        paramChild_mk, wildcardChild_mk, value_mk, mapGet, mapSet, if_true]
      simp only [NewRouteTrie] at e1 e2
      simp only [getSegs, children_mk, mapGet, if_true, e1, e2, and_self]

/-- C5. Named wildcard captures the remainder: on a freshly constructed trie,
for every sequence `P` of literal segments, every non-empty wildcard name `n`
and every non-nil value `v`, after `Add` of a route with segments `P, *n`
(which returns no error), `Get` of the route `P/rest`, for every string `rest`
with at least one character other than `/`, returns `v` with a mapping that is
exactly `n -> rest` with its leading and its trailing slashes removed: the whole
remaining route, not only its first segment. -/
theorem named_wildcard_capture {V : Type} (r : Str) (P : List Str) (n rest : Str) (v : V)
    (hP : ∀ s ∈ P, isLiteral s = true) (hn : n ≠ [])
    (hr : segments r = P ++ [('*' :: n)]) (hrest : ∃ c ∈ rest, c ≠ '/') :
    (Add (NewRouteTrie : RouteTrie V) r (some v)).2 = none ∧
    Get (Add (NewRouteTrie : RouteTrie V) r (some v)).1 (joinSlash P rest)
      = (some v, some [(n, trimRight (normalize rest))]) := by
  have hmem : ∀ s ∈ P, s ≠ [] ∧ '/' ∉ s := fun s hs =>
    have hm : s ∈ segments r := by rw [hr]; simp [hs]
    ⟨mem_segments_ne_nil hm, mem_segments_no_slash hm⟩
  obtain ⟨lvP, more, h1, h2⟩ := levels_joinSlash rest hrest P hmem
  have h := addSegs_wildcard_get n v (split (normalize rest)).1 (trimRight (normalize rest))
    more P lvP h1 (fun s hs => ⟨(hmem s hs).1, hP s hs⟩) []
  rw [← hr, ← h2, ← Add_eq_addSegs, ← getValue_eq_getSegs] at h
  refine ⟨h.1, ?_⟩
  simp only [Get, h.2, hn, ne_eq, not_false_eq_true, if_true]
  rfl

/-- Witness of C5: the route `example.com/foo/*rest` and the lookup of
`example.com/foo/a/b/c`. -/
theorem named_wildcard_capture_witness :
    (∀ s ∈ [str "example.com", str "foo"], isLiteral s = true) ∧ str "rest" ≠ [] ∧
    segments (str "example.com/foo/*rest") =
      [str "example.com", str "foo"] ++ [('*' :: str "rest")] ∧
    (∃ c ∈ str "a/b/c", c ≠ '/') ∧
    Get (Add (NewRouteTrie : RouteTrie Nat) (str "example.com/foo/*rest") (some 5)).1
      (str "example.com/foo/a/b/c") = (some 5, some [(str "rest", str "a/b/c")]) :=
  ⟨by decide, by decide, by decide, by decide,
    (named_wildcard_capture (str "example.com/foo/*rest") [str "example.com", str "foo"]
      (str "rest") (str "a/b/c") 5 (by decide) (by decide) (by decide) (by decide)).2⟩

/-- C6. Unnamed wildcard captures nothing: on a freshly constructed trie, for
every sequence `P` of literal segments and every non-nil value `v`, after `Add`
of a route with segments `P, *` (the wildcard with the empty name, no error),
`Get` of the route `P/rest`, for every string `rest` with at least one character
other than `/`, returns `v` together with a mapping that is present and empty. -/
theorem unnamed_wildcard_capture {V : Type} (r : Str) (P : List Str) (rest : Str) (v : V)
    (hP : ∀ s ∈ P, isLiteral s = true)
    (hr : segments r = P ++ [['*']]) (hrest : ∃ c ∈ rest, c ≠ '/') :
    (Add (NewRouteTrie : RouteTrie V) r (some v)).2 = none ∧
    Get (Add (NewRouteTrie : RouteTrie V) r (some v)).1 (joinSlash P rest)
      = (some v, some []) := by
  have hmem : ∀ s ∈ P, s ≠ [] ∧ '/' ∉ s := fun s hs =>
    have hm : s ∈ segments r := by rw [hr]; simp [hs]
    ⟨mem_segments_ne_nil hm, mem_segments_no_slash hm⟩
  obtain ⟨lvP, more, h1, h2⟩ := levels_joinSlash rest hrest P hmem
  have h := addSegs_wildcard_get [] v (split (normalize rest)).1 (trimRight (normalize rest))
    more P lvP h1 (fun s hs => ⟨(hmem s hs).1, hP s hs⟩) []
  rw [← hr, ← h2, ← Add_eq_addSegs, ← getValue_eq_getSegs] at h
  refine ⟨h.1, ?_⟩
  simp only [Get, h.2]
  rfl

/-- Witness of C6: the route `example.com/*` and the lookup of
`example.com/abc/def`. -/
theorem unnamed_wildcard_capture_witness :
    (∀ s ∈ [str "example.com"], isLiteral s = true) ∧
    segments (str "example.com/*") = [str "example.com"] ++ [['*']] ∧
    (∃ c ∈ str "abc/def", c ≠ '/') ∧
    Get (Add (NewRouteTrie : RouteTrie Nat) (str "example.com/*") (some 4)).1
      (str "example.com/abc/def") = (some 4, some []) :=
  ⟨by decide, by decide, by decide,
    (unnamed_wildcard_capture (str "example.com/*") [str "example.com"]
      (str "abc/def") 4 (by decide) (by decide) (by decide)).2⟩

/-! ## C7: no false match -/

/-- A lookup at one level sees the node only through the lookup in its literal
child, the lookup in its parameter child, and its wildcard child. -/
theorem getSegs_congr {V : Type} (t t2 : RouteTrie V) (head rem : Str)
    (rest : List (Str × Str))
    (hl : ∀ p : Params,
      (match mapGet t.children head with
        | some c => getSegs c rest p
        | none => ((none : Option V), p)) =
      (match mapGet t2.children head with
        | some c => getSegs c rest p
        | none => ((none : Option V), p)))
    (hp : ∀ p : Params,
      (match t.paramChild with
        | some (pname, ptrie) =>
          (match (getSegs ptrie rest p).1 with
            | some v => ((some v : Option V), mapSet (getSegs ptrie rest p).2 pname head)
            | none => (none, (getSegs ptrie rest p).2))
        | none => (none, p)) =
      (match t2.paramChild with
        | some (pname, ptrie) =>
          (match (getSegs ptrie rest p).1 with
            | some v => ((some v : Option V), mapSet (getSegs ptrie rest p).2 pname head)
            | none => (none, (getSegs ptrie rest p).2))
        | none => (none, p)))
    (hw : t.wildcardChild = t2.wildcardChild) (p0 : Params) :
    getSegs t ((head, rem) :: rest) p0 = getSegs t2 ((head, rem) :: rest) p0 := by
  simp only [getSegs, hl, hp, hw]

theorem getSegs_new {V : Type} (lv : List (Str × Str)) (p : Params) :
    getSegs (NewRouteTrie : RouteTrie V) lv p = (none, p) := by
  cases lv with
  | nil => rfl
  | cons e rest => obtain ⟨h, rem⟩ := e; simp [getSegs, NewRouteTrie, mapGet]

theorem addSegs_new_ok {V : Type} (v : Option V) : ∀ ps : List Str, (∀ s ∈ ps, s ≠ []) →
    (addSegs (NewRouteTrie : RouteTrie V) ps v).2 = none := by
  intro ps
  induction ps with
  | nil => intro _; rfl
  | cons s rest ih =>
    intro hne
    have ih2 := ih (fun s hs => hne s (List.mem_cons_of_mem _ hs))
    obtain ⟨c, name, rfl⟩ := List.exists_cons_of_ne_nil (hne s (List.mem_cons_self _ _))
    simp only [addSegs, NewRouteTrie, paramChild_mk, children_mk, mapGet]
    simp only [NewRouteTrie] at ih2
    by_cases h1 : c = ':'
    · simp [h1, ih2]
    · by_cases h2 : c = '*'
      · simp [h2]
      · simp [h1, h2, ih2]

/-- An `Add` that returns an error leaves the trie as it was. -/
theorem addSegs_error_unchanged {V : Type} (v : Option V) : ∀ ps : List Str,
    (∀ s ∈ ps, s ≠ []) → ∀ t : RouteTrie V, (addSegs t ps v).2 ≠ none →
    (addSegs t ps v).1 = t := by
  intro ps
  induction ps with
  | nil => intro _ t h; exact absurd rfl h
  | cons s rest ih =>
    intro hne t herr
    have hrest : ∀ s ∈ rest, s ≠ [] := fun s hs => hne s (List.mem_cons_of_mem _ hs)
    obtain ⟨c, name, rfl⟩ := List.exists_cons_of_ne_nil (hne s (List.mem_cons_self _ _))
    by_cases h1 : c = ':'
    · subst h1
      cases hp : t.paramChild with
      | none =>
        simp only [addSegs, hp, if_true] at herr
        exact absurd (addSegs_new_ok v rest hrest) herr
      | some pc =>
        obtain ⟨pname, ptrie⟩ := pc
        by_cases hn : pname = name
        · subst hn
          simp only [addSegs, hp, if_true, ne_eq, not_true_eq_false, if_false] at herr ⊢
          rw [ih hrest ptrie herr, ← hp]
          exact mk_eta t
        · simp only [addSegs, hp, if_true, ne_eq, hn, not_false_eq_true]
    · by_cases h2 : c = '*'
      · subst h2
        simp [addSegs] at herr
      · cases hm : mapGet t.children (c :: name) with
        | none =>
          simp only [addSegs, h1, h2, hm, if_false] at herr
          exact absurd (addSegs_new_ok v rest hrest) herr
        | some child =>
          simp only [addSegs, h1, h2, hm, if_false] at herr ⊢
          rw [ih hrest child herr, mapSet_mapGet_self _ _ _ hm]
          exact mk_eta t

/-- A successful `Add` of a route changes no lookup of a route that does not
match it: value and `params` are as before. -/
theorem addSegs_frame {V : Type} (v : Option V) : ∀ ps : List Str,
    (∀ s ∈ ps, s ≠ []) → ∀ (t : RouteTrie V), (addSegs t ps v).2 = none →
    ∀ (lv : List (Str × Str)) (p0 : Params), matchSegs ps (lv.map Prod.fst) = false →
      getSegs (addSegs t ps v).1 lv p0 = getSegs t lv p0 := by
  intro ps
  induction ps with
  | nil =>
    intro _ t _ lv p0 hm
    cases lv with
    | nil => simp [matchSegs] at hm
    | cons e lv2 =>
      obtain ⟨h, rem⟩ := e
      apply getSegs_congr
      · intro p; rfl
      · intro p; rfl
      · rfl
  | cons s rest ih =>
    intro hne t hok lv p0 hm
    have hrest : ∀ s ∈ rest, s ≠ [] := fun s hs => hne s (List.mem_cons_of_mem _ hs)
    obtain ⟨c, name, rfl⟩ := List.exists_cons_of_ne_nil (hne s (List.mem_cons_self _ _))
    by_cases h1 : c = ':'
    · subst h1
      cases lv with
      | nil =>
        cases hp : t.paramChild with
        | none => simp [addSegs, hp, getSegs]
        | some pc =>
          obtain ⟨pname, ptrie⟩ := pc
          by_cases hn : pname = name
          · simp [addSegs, hp, getSegs, hn]
          · simp [addSegs, hp, hn] at hok
      | cons e lv2 =>
        obtain ⟨h, rem⟩ := e
        have hm2 : matchSegs rest (lv2.map Prod.fst) = false := by
          simpa [matchSegs, isWildcard, isParam] using hm
        cases hp : t.paramChild with
        | none =>
          simp only [addSegs, hp, if_true] at hok ⊢
          apply getSegs_congr
          · intro p; rfl
          · intro p
            simp only [paramChild_mk, hp]
            rw [ih hrest NewRouteTrie hok lv2 p hm2, getSegs_new]
          · rfl
        | some pc =>
          obtain ⟨pname, ptrie⟩ := pc
          by_cases hn : pname = name
          · subst hn
            simp only [addSegs, hp, if_true, ne_eq, not_true_eq_false, if_false] at hok ⊢
            apply getSegs_congr
            · intro p; rfl
            · intro p
              simp only [paramChild_mk, hp]
              rw [ih hrest ptrie hok lv2 p hm2]
            · rfl
          · simp [addSegs, hp, hn] at hok
    · by_cases h2 : c = '*'
      · subst h2
        cases lv with
        | nil => simp [addSegs, getSegs]
        | cons e lv2 => simp [matchSegs, isWildcard] at hm
      · cases lv with
        | nil =>
          cases hmg : mapGet t.children (c :: name) <;> simp [addSegs, h1, h2, hmg, getSegs]
        | cons e lv2 =>
          obtain ⟨h, rem⟩ := e
          have hm2 : h = c :: name → matchSegs rest (lv2.map Prod.fst) = false := by
            intro hh
            simpa [matchSegs, isWildcard, isParam, h1, h2, hh] using hm
          by_cases hh : h = c :: name
          · subst hh
            cases hmg : mapGet t.children (c :: name) with
            | none =>
              simp only [addSegs, h1, h2, hmg, if_false] at hok ⊢
              apply getSegs_congr
              · intro p
                simp only [children_mk, mapGet_mapSet_same, hmg]
                rw [ih hrest NewRouteTrie hok lv2 p (hm2 rfl), getSegs_new]
              · intro p; rfl
              · rfl
            | some child =>
              simp only [addSegs, h1, h2, hmg, if_false] at hok ⊢
              apply getSegs_congr
              · intro p
                simp only [children_mk, mapGet_mapSet_same, hmg]
                rw [ih hrest child hok lv2 p (hm2 rfl)]
              · intro p; rfl
              · rfl
          · cases hmg : mapGet t.children (c :: name) with
            | none =>
              simp only [addSegs, h1, h2, hmg, if_false]
              apply getSegs_congr
              · intro p
                simp only [children_mk, mapGet_mapSet_ne _ _ _ _ (Ne.symm hh)]
              · intro p; rfl
              · rfl
            | some child =>
              simp only [addSegs, h1, h2, hmg, if_false]
              apply getSegs_congr
              · intro p
                simp only [children_mk, mapGet_mapSet_ne _ _ _ _ (Ne.symm hh)]
              · intro p; rfl
              · rfl

theorem getValue_new {V : Type} (q : Str) (p : Params) :
    getValue (NewRouteTrie : RouteTrie V) q p = (none, p) := by
  rw [getValue_eq_getSegs, getSegs_new]

theorem getValue_addAll_of_no_match {V : Type} (q : Str) :
    ∀ (ops : List (Str × Option V)) (t0 : RouteTrie V),
      (∀ r ∈ okRoutes t0 ops, routeMatches r q = false) →
      ∀ p : Params, getValue (addAll t0 ops) q p = getValue t0 q p := by
  intro ops
  induction ops with
  | nil => intro t0 _ p; rfl
  | cons op rest ih =>
    intro t0 hno p
    obtain ⟨route, value⟩ := op
    have hne : ∀ s ∈ segments route, s ≠ [] := fun s hs => mem_segments_ne_nil hs
    show getValue (addAll (Add t0 route value).1 rest) q p = _
    by_cases herr : (Add t0 route value).2 = none
    · have hno2 : ∀ r ∈ route :: okRoutes (Add t0 route value).1 rest,
          routeMatches r q = false := by
        simpa only [okRoutes, herr, if_true] using hno
      rw [ih _ (fun r hr => hno2 r (List.mem_cons_of_mem _ hr)) p]
      have hm : matchSegs (segments route) ((levels q).map Prod.fst) = false := by
        rw [levels_map_fst]; exact hno2 route (List.mem_cons_self _ _)
      rw [Add_eq_addSegs] at herr ⊢
      rw [getValue_eq_getSegs, getValue_eq_getSegs]
      exact addSegs_frame value _ hne t0 herr _ p hm
    · have hno2 : ∀ r ∈ okRoutes (Add t0 route value).1 rest, routeMatches r q = false := by
        simpa only [okRoutes, herr, if_false] using hno
      rw [ih _ hno2 p]
      rw [Add_eq_addSegs] at herr ⊢
      rw [addSegs_error_unchanged value _ hne t0 herr]

/-- C7. No false match: for every trie built from `NewRouteTrie` by a sequence
of `Add` calls and every lookup route `q` that matches none of the routes whose
`Add` returned no error, `Get(q)` returns an absent value together with an
absent (nil, not empty) mapping. Here `q` matches a registered route `r` when,
over their segments in order, each literal segment of `r` equals the segment of
`q` at its position, each `:` segment of `r` stands for exactly one segment of
`q`, a `*` segment of `r` stands for one or more remaining segments of `q` and
ends `r` (what follows it in `r` is not compared), and otherwise both end
together. In particular every lookup on a freshly constructed trie returns
(absent, absent). -/
theorem no_false_match {V : Type} (ops : List (Str × Option V)) (q : Str) :
    ((∀ r ∈ okRoutes (NewRouteTrie : RouteTrie V) ops, routeMatches r q = false) →
      Get (addAll (NewRouteTrie : RouteTrie V) ops) q = (none, none)) ∧
    Get (NewRouteTrie : RouteTrie V) q = (none, none) := by
  constructor
  · intro hno
    simp only [Get, getValue_addAll_of_no_match q ops NewRouteTrie hno, getValue_new]
  · simp only [Get, getValue_new]

/-- Witness of C7: three routes are added, the third is refused; the lookup
of `a/b/c` matches neither of the two registered routes, nor does it find the
refused one. -/
theorem no_false_match_witness :
    okRoutes (NewRouteTrie : RouteTrie Nat)
      [(str "a/:x", some 1), (str "c/b/*w", some 2), (str "a/:y/c", some 3)]
      = [str "a/:x", str "c/b/*w"] ∧
    (∀ r ∈ okRoutes (NewRouteTrie : RouteTrie Nat)
      [(str "a/:x", some 1), (str "c/b/*w", some 2), (str "a/:y/c", some 3)],
      routeMatches r (str "a/b/c") = false) ∧
    Get (addAll (NewRouteTrie : RouteTrie Nat)
      [(str "a/:x", some 1), (str "c/b/*w", some 2), (str "a/:y/c", some 3)])
      (str "a/b/c") = (none, none) :=
  ⟨by decide, by decide,
    (no_false_match [(str "a/:x", some 1), (str "c/b/*w", some 2), (str "a/:y/c", some 3)]
      (str "a/b/c")).1 (by decide)⟩

/-! ## C8 and C9: the parameter-name conflict -/

theorem addSegs_error_eq {V : Type} (v : Option V) : ∀ ps : List Str,
    (∀ s ∈ ps, s ≠ []) → ∀ t : RouteTrie V,
    (addSegs t ps v).2 = if conflictAt t ps = true then some .paramConflict else none := by
  intro ps
  induction ps with
  | nil => intro _ t; rfl
  | cons s rest ih =>
    intro hne t
    have hrest : ∀ s ∈ rest, s ≠ [] := fun s hs => hne s (List.mem_cons_of_mem _ hs)
    obtain ⟨c, name, rfl⟩ := List.exists_cons_of_ne_nil (hne s (List.mem_cons_self _ _))
    by_cases h1 : c = ':'
    · subst h1
      cases hp : t.paramChild with
      | none =>
        simp [addSegs, conflictAt, isWildcard, isParam, hp, addSegs_new_ok v rest hrest]
      | some pc =>
        obtain ⟨pname, ptrie⟩ := pc
        by_cases hn : pname = name
        · simp [addSegs, conflictAt, isWildcard, isParam, hp, hn, ih hrest ptrie]
        · simp [addSegs, conflictAt, isWildcard, isParam, hp, hn]
    · by_cases h2 : c = '*'
      · subst h2; simp [addSegs, conflictAt, isWildcard]
      · cases hm : mapGet t.children (c :: name) with
        | none =>
          simp [addSegs, conflictAt, isWildcard, isParam, h1, h2, hm,
            addSegs_new_ok v rest hrest]
        | some child =>
          simp [addSegs, conflictAt, isWildcard, isParam, h1, h2, hm, ih hrest child]

theorem conflictAt_new {V : Type} (ps : List Str) :
    conflictAt (NewRouteTrie : RouteTrie V) ps = false := by
  cases ps with
  | nil => rfl
  | cons s rest =>
    simp only [conflictAt, NewRouteTrie, paramChild_mk, children_mk, mapGet]
    split <;> [rfl; (split <;> rfl)]

theorem conflictAt_no_param {V : Type} : ∀ (ps : List Str) (t : RouteTrie V),
    (∀ s ∈ ps, isParam s = false) → conflictAt t ps = false := by
  intro ps
  induction ps with
  | nil => intro t _; rfl
  | cons s rest ih =>
    intro t h
    have hs := h s (List.mem_cons_self _ _)
    have ih2 := fun t2 : RouteTrie V => ih t2 (fun s hs => h s (List.mem_cons_of_mem _ hs))
    simp only [conflictAt, hs]
    by_cases hw : isWildcard s = true
    · simp [hw]
    · cases hm : mapGet t.children s with
      | none => simp [hw]
      | some child => simp [hw, ih2 child]

/-- C9. The parameter-name conflict is the only error of `Add`: for every
trie `t` (reachable from `NewRouteTrie` or not), every route `r` and every value
`v`, `Add(r, v)` returns an error if and only if, consuming the segments of `r`
from the root, some segment `:name` that comes before any segment beginning with
`*` arrives at an already existing node whose parameter child has a name
different from `name`; the error is then the conflict error and nothing else.
In particular `Add` never fails on a freshly constructed trie, and never fails
for a route that has no segment beginning with `:`. -/
theorem add_error_iff_conflict {V : Type} (t : RouteTrie V) (r : Str) (v : Option V) :
    ((Add t r v).2 ≠ none ↔ conflictAt t (segments r) = true) ∧
    ((Add t r v).2 = none ∨ (Add t r v).2 = some .paramConflict) ∧
    (Add (NewRouteTrie : RouteTrie V) r v).2 = none ∧
    ((∀ s ∈ segments r, isParam s = false) → (Add t r v).2 = none) := by
  have hne : ∀ s ∈ segments r, s ≠ [] := fun s hs => mem_segments_ne_nil hs
  have h := addSegs_error_eq v (segments r) hne
  simp only [Add_eq_addSegs, h]
  refine ⟨?_, ?_, ?_, ?_⟩
  · cases conflictAt t (segments r) <;> simp
  · cases conflictAt t (segments r) <;> simp
  · simp [conflictAt_new]
  · intro hp; simp [conflictAt_no_param _ t hp]

/-- Witness of C9: on the trie holding `a/:x`, the route `a/:y/b` is refused,
and the route `a/b/c`, which has no `:` segment, is accepted. -/
theorem add_error_iff_conflict_witness :
    (Add (Add (NewRouteTrie : RouteTrie Nat) (str "a/:x") (some 1)).1 (str "a/:y/b")
      (some 2)).2 = some .paramConflict ∧
    (∀ s ∈ segments (str "a/b/c"), isParam s = false) ∧
    (Add (Add (NewRouteTrie : RouteTrie Nat) (str "a/:x") (some 1)).1 (str "a/b/c")
      (some 2)).2 = none :=
  ⟨by decide, by decide,
    (add_error_iff_conflict (Add (NewRouteTrie : RouteTrie Nat) (str "a/:x") (some 1)).1
      (str "a/b/c") (some 2)).2.2.2 (by decide)⟩

theorem isWildcard_cons (c : Char) (name : Str) :
    isWildcard (c :: name) = false ↔ c ≠ '*' := by
  simp [isWildcard]

theorem addSegs_conflict {V : Type} (x y : Str) (hxy : x ≠ y) (T1 T2 : List Str)
    (v1 v2 : Option V) : ∀ P : List Str, (∀ s ∈ P, s ≠ [] ∧ isWildcard s = false) →
    ∀ t : RouteTrie V, (addSegs t (P ++ (':' :: x) :: T1) v1).2 = none →
      (addSegs (addSegs t (P ++ (':' :: x) :: T1) v1).1 (P ++ (':' :: y) :: T2) v2).2
        = some .paramConflict := by
  intro P
  induction P with
  | nil =>
    intro _ t hok
    simp only [List.nil_append] at hok ⊢
    cases hp : t.paramChild with
    | none => simp [addSegs, hp, hxy]
    | some pc =>
      obtain ⟨pname, ptrie⟩ := pc
      by_cases hn : pname = x
      · subst hn; simp [addSegs, hp, hxy]
      · simp [addSegs, hp, hn] at hok
  | cons s rest ih =>
    intro hP t hok
    have hrest : ∀ s ∈ rest, s ≠ [] ∧ isWildcard s = false :=
      fun s hs => hP s (List.mem_cons_of_mem _ hs)
    have hs := hP s (List.mem_cons_self _ _)
    obtain ⟨c, name, rfl⟩ := List.exists_cons_of_ne_nil hs.1
    have h2 : c ≠ '*' := (isWildcard_cons c name).1 hs.2
    rw [List.cons_append, List.cons_append] at *
    generalize rest ++ (':' :: x) :: T1 = A at ih hok ⊢
    generalize rest ++ (':' :: y) :: T2 = B at ih ⊢
    by_cases h1 : c = ':'
    · subst h1
      cases hp : t.paramChild with
      | none =>
        simp only [addSegs, hp, if_true] at hok ⊢
        simpa using ih hrest NewRouteTrie hok
      | some pc =>
        obtain ⟨pname, ptrie⟩ := pc
        by_cases hn : pname = name
        · subst hn
          simp only [addSegs, hp, if_true, ne_eq, not_true_eq_false, if_false] at hok ⊢
          simpa using ih hrest ptrie hok
        · simp [addSegs, hp, hn] at hok
    · cases hm : mapGet t.children (c :: name) with
      | none =>
        simp only [addSegs, h1, h2, hm, if_false] at hok ⊢
        simpa [mapGet_mapSet_same] using ih hrest NewRouteTrie hok
      | some child =>
        simp only [addSegs, h1, h2, hm, if_false] at hok ⊢
        simpa [mapGet_mapSet_same] using ih hrest child hok

theorem addSegs_same_name {V : Type} (x : Str) (T2 : List Str) (hT : ∀ s ∈ T2, s ≠ [])
    (v1 v2 : Option V) : ∀ P : List Str, (∀ s ∈ P, s ≠ [] ∧ isWildcard s = false) →
      (addSegs (addSegs (NewRouteTrie : RouteTrie V) (P ++ [(':' :: x)]) v1).1
        (P ++ (':' :: x) :: T2) v2).2 = none := by
  intro P
  induction P with
  | nil =>
    intro _
    have hleaf : conflictAt (RouteTrie.mk [] none none v1) T2 = false := by
      cases T2 with
      | nil => rfl
      | cons s rest =>
        simp only [conflictAt, paramChild_mk, children_mk, mapGet]
        split <;> [rfl; (split <;> rfl)]
    simp [addSegs, NewRouteTrie, addSegs_error_eq v2 T2 hT, hleaf]
  | cons s rest ih =>
    intro hP
    have ih2 := ih (fun s hs => hP s (List.mem_cons_of_mem _ hs))
    have hs := hP s (List.mem_cons_self _ _)
    obtain ⟨c, name, rfl⟩ := List.exists_cons_of_ne_nil hs.1
    have h2 : c ≠ '*' := (isWildcard_cons c name).1 hs.2
    rw [List.cons_append, List.cons_append]
    generalize rest ++ [(':' :: x)] = A at ih2 ⊢
    generalize rest ++ (':' :: x) :: T2 = B at ih2 ⊢
    simp only [NewRouteTrie] at ih2
    by_cases h1 : c = ':'
    · subst h1
      simp [addSegs, NewRouteTrie, ih2]
    · simp [addSegs, NewRouteTrie, h1, h2, mapGet, mapSet, ih2]

theorem add_error_unique_new {V : Type} (r : Str) (v : Option V) :
    (Add (NewRouteTrie : RouteTrie V) r v).2 = none := by
  rw [Add_eq_addSegs]
  exact addSegs_new_ok v _ (fun s hs => mem_segments_ne_nil hs)

/-- C8. Conflict rejection: for every trie `t` (reachable from `NewRouteTrie`
or not), every sequence `P` of literal and `:` segments (no `*` segment), all
names `x` and `y` with `x` different from `y`, all tails `T1`, `T2` (possibly
empty) and all values `v1`, `v2`: if `Add` of a route with segments `P, :x, T1`
returned no error, then a following `Add` of a route with segments `P, :y, T2`
returns the conflict error; and on a freshly constructed trie, after `Add` of a
route with segments `P, :x`, `Add` of a route with segments `P, :x, T2`, with the
same name `x`, returns no error for every tail `T2`. -/
theorem conflict_rejection {V : Type} (P : List Str) (x y : Str) (T1 T2 : List Str)
    (v1 v2 : Option V) (hP : ∀ s ∈ P, isWildcard s = false) :
    (∀ (t : RouteTrie V) (r1 r2 : Str), x ≠ y →
      segments r1 = P ++ (':' :: x) :: T1 → segments r2 = P ++ (':' :: y) :: T2 →
      (Add t r1 v1).2 = none → (Add (Add t r1 v1).1 r2 v2).2 = some .paramConflict) ∧
    (∀ (r1 r2 : Str), segments r1 = P ++ [(':' :: x)] →
      segments r2 = P ++ (':' :: x) :: T2 →
      (Add (NewRouteTrie : RouteTrie V) r1 v1).2 = none ∧
      (Add (Add (NewRouteTrie : RouteTrie V) r1 v1).1 r2 v2).2 = none) := by
  constructor
  · intro t r1 r2 hxy h1 h2 hok
    have hP2 : ∀ s ∈ P, s ≠ [] ∧ isWildcard s = false := fun s hs =>
      ⟨mem_segments_ne_nil (r := r1) (by rw [h1]; simp [hs]), hP s hs⟩
    rw [Add_eq_addSegs] at hok ⊢
    rw [Add_eq_addSegs, h2]
    rw [h1] at hok ⊢
    exact addSegs_conflict x y hxy T1 T2 v1 v2 P hP2 t hok
  · intro r1 r2 h1 h2
    have hP2 : ∀ s ∈ P, s ≠ [] ∧ isWildcard s = false := fun s hs =>
      ⟨mem_segments_ne_nil (r := r1) (by rw [h1]; simp [hs]), hP s hs⟩
    have hT : ∀ s ∈ T2, s ≠ [] := fun s hs =>
      mem_segments_ne_nil (r := r2) (by rw [h2]; simp [hs])
    refine ⟨(add_error_unique_new r1 v1), ?_⟩
    rw [Add_eq_addSegs, Add_eq_addSegs, h1, h2]
    exact addSegs_same_name x T2 hT v1 v2 P hP2

/-- Witness of C8: after `a/:x`, the route `a/:y/more` is refused and the route
`a/:x/more` is accepted. -/
theorem conflict_rejection_witness :
    (∀ s ∈ [str "a"], isWildcard s = false) ∧ str "x" ≠ str "y" ∧
    segments (str "a/:x") = [str "a"] ++ (':' :: str "x") :: [] ∧
    segments (str "a/:y/more") = [str "a"] ++ (':' :: str "y") :: [str "more"] ∧
    segments (str "a/:x/more") = [str "a"] ++ (':' :: str "x") :: [str "more"] ∧
    (Add (NewRouteTrie : RouteTrie Nat) (str "a/:x") (some 1)).2 = none ∧
    (Add (Add (NewRouteTrie : RouteTrie Nat) (str "a/:x") (some 1)).1 (str "a/:y/more")
      (some 2)).2 = some .paramConflict ∧
    (Add (Add (NewRouteTrie : RouteTrie Nat) (str "a/:x") (some 1)).1 (str "a/:x/more")
      (some 2)).2 = none :=
  ⟨by decide, by decide, by decide, by decide, by decide, by decide,
    (conflict_rejection [str "a"] (str "x") (str "y") [] [str "more"] (some 1) (some 2)
      (by decide)).1 NewRouteTrie (str "a/:x") (str "a/:y/more")
      (by decide) (by decide) (by decide) (by decide),
    ((conflict_rejection [str "a"] (str "x") (str "y") [] [str "more"] (some 1) (some 2)
      (by decide)).2 (str "a/:x") (str "a/:x/more") (by decide) (by decide)).2⟩

/-! ## C10: stray parameter entries -/

/-- C10, the code at the failing input: with a nil value registered under the
wildcard route `a/*w` and the value 1 under `:p/b`, `Get` of `a/b` returns 1
with the two entries `w -> b` and `p -> a`, the first written by the abandoned
literal branch, while the pure lookup returns the single binding `p -> a`. -/
theorem get_stray_entry :
    Get nilWildcardTrie (str "a/b") =
      (some 1, some [(str "w", str "b"), (str "p", str "a")]) ∧
    GetPure nilWildcardTrie (str "a/b") = some (1, [(str "p", str "a")]) := by
  decide

theorem NoNilWildcard.children_ok {V : Type} {t : RouteTrie V} (h : NoNilWildcard t) :
    ∀ e ∈ t.children, NoNilWildcard e.2 := by
  cases h with
  | mk c pc wc v h1 h2 h3 => exact h1

theorem NoNilWildcard.paramChild_ok {V : Type} {t : RouteTrie V} (h : NoNilWildcard t) :
    ∀ x, t.paramChild = some x → NoNilWildcard x.2 := by
  cases h with
  | mk c pc wc v h1 h2 h3 => exact h2

theorem NoNilWildcard.wildcardChild_ok {V : Type} {t : RouteTrie V} (h : NoNilWildcard t) :
    ∀ w, t.wildcardChild = some w → w.value ≠ none := by
  cases h with
  | mk c pc wc v h1 h2 h3 => exact h3

theorem mapGet_mem {α : Type} (m : GoMap α) (k : Str) (a : α) (h : mapGet m k = some a) :
    (k, a) ∈ m := by
  induction m with
  | nil => simp [mapGet] at h
  | cons e rest ih =>
    obtain ⟨k2, a2⟩ := e
    by_cases hk : k2 = k
    · subst hk; simp [mapGet] at h; simp [h]
    · simp [mapGet, hk] at h; exact List.mem_cons_of_mem _ (ih h)

theorem mem_mapSet {α : Type} (m : GoMap α) (k : Str) (a : α) (e : Str × α)
    (h : e ∈ mapSet m k a) : e = (k, a) ∨ e ∈ m := by
  induction m with
  | nil => simp [mapSet] at h; exact Or.inl h
  | cons e2 rest ih =>
    obtain ⟨k2, a2⟩ := e2
    by_cases hk : k2 = k
    · simp only [mapSet, hk, if_true, List.mem_cons] at h
      rcases h with h | h
      · exact Or.inl h
      · exact Or.inr (List.mem_cons_of_mem _ h)
    · simp only [mapSet, hk, if_false, List.mem_cons] at h
      rcases h with h | h
      · exact Or.inr (h ▸ List.mem_cons_self _ _)
      · rcases ih h with h2 | h2
        · exact Or.inl h2
        · exact Or.inr (List.mem_cons_of_mem _ h2)

/-- When no wildcard child holds nil, the lookup with the empty `params` map
returns what the pure lookup returns, and a failed lookup leaves the map empty. -/
theorem getSegs_refines {V : Type} : ∀ (lv : List (Str × Str)) (t : RouteTrie V),
    NoNilWildcard t →
    getSegs t lv [] =
      match pureSegs t lv with
      | some r => (some r.1, r.2)
      | none => (none, []) := by
  intro lv
  induction lv with
  | nil =>
    intro t _
    simp only [getSegs, pureSegs]
    cases t.value <;> rfl
  | cons hd rest ih =>
    intro t ht
    obtain ⟨head, rem⟩ := hd
    simp only [getSegs, pureSegs]
    have hlit : (match mapGet t.children head with
        | some childNode => getSegs childNode rest []
        | none => ((none : Option V), ([] : Params))) =
        match (match mapGet t.children head with
          | some childNode => pureSegs childNode rest
          | none => none) with
        | some r => (some r.1, r.2)
        | none => (none, []) := by
      cases hm : mapGet t.children head with
      | none => rfl
      | some c => exact ih c (ht.children_ok _ (mapGet_mem _ _ _ hm))
    rw [hlit]
    cases (match mapGet t.children head with
        | some childNode => pureSegs childNode rest
        | none => none) with
    | some r => rfl
    | none =>
      simp only []
      cases hp : t.paramChild with
      | some pc =>
        obtain ⟨pname, ptrie⟩ := pc
        simp only []
        rw [ih ptrie (ht.paramChild_ok _ hp)]
        cases pureSegs ptrie rest with
        | some r => rfl
        | none =>
          simp only []
          cases hw : t.wildcardChild with
          | none => rfl
          | some w =>
            simp only []
            cases hv : w.value with
            | none => exact absurd hv (ht.wildcardChild_ok w hw)
            | some v => rfl
      | none =>
        simp only []
        cases hw : t.wildcardChild with
        | none => rfl
        | some w =>
          simp only []
          cases hv : w.value with
          | none => exact absurd hv (ht.wildcardChild_ok w hw)
          | some v => rfl

theorem noNilWildcard_new {V : Type} : NoNilWildcard (NewRouteTrie : RouteTrie V) :=
  NoNilWildcard.mk [] none none none (fun _ h => by simp at h) (fun _ h => by simp at h)
    (fun _ h => by simp at h)

theorem noNilWildcard_mk {V : Type} {t : RouteTrie V} (ht : NoNilWildcard t)
    (value : Option V) :
    NoNilWildcard (.mk t.children t.paramChild t.wildcardChild value) :=
  NoNilWildcard.mk _ _ _ _ ht.children_ok ht.paramChild_ok ht.wildcardChild_ok

theorem addSegs_noNilWildcard {V : Type} (v : V) : ∀ (ps : List Str) (t : RouteTrie V),
    NoNilWildcard t → NoNilWildcard (addSegs t ps (some v)).1 := by
  intro ps
  induction ps with
  | nil => intro t ht; exact noNilWildcard_mk ht _
  | cons s rest ih =>
    intro t ht
    cases s with
    | nil => exact ht
    | cons c name =>
      by_cases h1 : c = ':'
      · subst h1
        cases hp : t.paramChild with
        | none =>
          simp only [addSegs, hp, if_true]
          refine NoNilWildcard.mk _ _ _ _ ht.children_ok ?_ ht.wildcardChild_ok
          intro x hx
          cases hx
          exact ih _ noNilWildcard_new
        | some pc =>
          obtain ⟨pname, ptrie⟩ := pc
          by_cases hn : pname = name
          · simp only [addSegs, hp, if_true, hn, ne_eq, not_true_eq_false, if_false]
            refine NoNilWildcard.mk _ _ _ _ ht.children_ok ?_ ht.wildcardChild_ok
            intro x hx
            cases hx
            exact ih _ (ht.paramChild_ok _ hp)
          · simp only [addSegs, hp, if_true, ne_eq, hn, not_false_eq_true]
            exact ht
      · by_cases h2 : c = '*'
        · subst h2
          simp only [addSegs, h1, if_false, if_true]
          refine NoNilWildcard.mk _ _ _ _ ht.children_ok ht.paramChild_ok ?_
          intro w hw
          cases hw
          simp
        · cases hm : mapGet t.children (c :: name) with
          | none =>
            simp only [addSegs, h1, h2, hm, if_false]
            refine NoNilWildcard.mk _ _ _ _ ?_ ht.paramChild_ok ht.wildcardChild_ok
            intro e he
            rcases mem_mapSet _ _ _ _ he with h | h
            · rw [h]; exact ih _ noNilWildcard_new
            · exact ht.children_ok e h
          | some child =>
            simp only [addSegs, h1, h2, hm, if_false]
            refine NoNilWildcard.mk _ _ _ _ ?_ ht.paramChild_ok ht.wildcardChild_ok
            intro e he
            rcases mem_mapSet _ _ _ _ he with h | h
            · rw [h]; exact ih _ (ht.children_ok _ (mapGet_mem _ _ _ hm))
            · exact ht.children_ok e h

theorem addAll_noNilWildcard {V : Type} : ∀ (ops : List (Str × Option V)) (t : RouteTrie V),
    (∀ op ∈ ops, op.2 ≠ none) → NoNilWildcard t → NoNilWildcard (addAll t ops) := by
  intro ops
  induction ops with
  | nil => intro t _ ht; exact ht
  | cons op rest ih =>
    intro t hops ht
    obtain ⟨route, value⟩ := op
    have hv : value ≠ none := hops (route, value) (List.mem_cons_self _ _)
    obtain ⟨v, rfl⟩ := Option.ne_none_iff_exists'.1 hv
    show NoNilWildcard (addAll (Add t route (some v)).1 rest)
    apply ih _ (fun op h => hops op (List.mem_cons_of_mem _ h))
    rw [Add_eq_addSegs]
    exact addSegs_noNilWildcard v _ t ht

/-- The refinement of C10 where it holds: on every trie built from
`NewRouteTrie` by `Add` calls with non-nil values, `Get` returns exactly the
value and the bindings of the pure lookup, and `(nil, nil)` when the pure lookup
finds nothing. -/
theorem get_refines_pure_of_non_nil {V : Type} (ops : List (Str × Option V)) (q : Str)
    (hops : ∀ op ∈ ops, op.2 ≠ none) :
    Get (addAll (NewRouteTrie : RouteTrie V) ops) q =
      match GetPure (addAll (NewRouteTrie : RouteTrie V) ops) q with
      | some r => (some r.1, some r.2)
      | none => (none, none) := by
  have h := getSegs_refines (levels q) _ (addAll_noNilWildcard ops _ hops noNilWildcard_new)
  simp only [Get, GetPure, getValue_eq_getSegs, h]
  cases pureSegs (addAll (NewRouteTrie : RouteTrie V) ops) (levels q) <;> rfl

/-- Witness of the refinement on the two routes of the test that walk up and
back down the trie. -/
theorem get_refines_pure_of_non_nil_witness :
    (∀ op ∈ [(str "test/one/:two", some 9), (str "test/:one/two/three", some 10)],
      op.2 ≠ none) ∧
    GetPure (addAll (NewRouteTrie : RouteTrie Nat)
      [(str "test/one/:two", some 9), (str "test/:one/two/three", some 10)])
      (str "test/one/two/three") = some (10, [(str "one", str "one")]) ∧
    Get (addAll (NewRouteTrie : RouteTrie Nat)
      [(str "test/one/:two", some 9), (str "test/:one/two/three", some 10)])
      (str "test/one/two/three") = (some 10, some [(str "one", str "one")]) :=
  ⟨by decide, by decide,
    (get_refines_pure_of_non_nil
      [(str "test/one/:two", some 9), (str "test/:one/two/three", some 10)]
      (str "test/one/two/three") (by decide)).trans (by decide)⟩

/-! ## C13: leading slashes -/

theorem levels_slash (cs : Str) : levels ('/' :: cs) = levels cs := by
  rw [levels_unfold ('/' :: cs), normalize_slash]
  exact (levels_unfold cs).symm

/-- C13. Leading slashes are insignificant: for every trie `t`, every route
`r` and every value `v`, `Add("/" ++ r, v)` returns the same result and produces
the same trie as `Add(r, v)`, and `Get("/" ++ r)` returns the same value and the
same mapping as `Get(r)`. -/
theorem leading_slash_insignificant {V : Type} (t : RouteTrie V) (r : Str) (v : Option V) :
    Add t ('/' :: r) v = Add t r v ∧ Get t ('/' :: r) = Get t r := by
  constructor
  · rw [Add_eq_addSegs, Add_eq_addSegs, segments_slash]
  · simp only [Get, getValue_eq_getSegs, levels_slash]

/-! ## C11: a wildcard segment ends the route -/

theorem splitAll_ne_nil (r : Str) : splitAll r ≠ [] := by
  cases r with
  | nil => simp [splitAll]
  | cons c cs =>
    by_cases h : c = '/'
    · simp [splitAll, h]
    · simp only [splitAll, h, if_false]
      cases splitAll cs <;> simp

theorem splitAll_cons_ne (c : Char) (cs s : Str) (ss : List Str) (h : c ≠ '/')
    (hs : splitAll cs = s :: ss) : splitAll (c :: cs) = (c :: s) :: ss := by
  simp [splitAll, h, hs]

theorem splitAll_append_slash (a b : Str) :
    splitAll (a ++ '/' :: b) = splitAll a ++ splitAll b := by
  induction a with
  | nil => simp [splitAll]
  | cons c cs ih =>
    by_cases h : c = '/'
    · simp [splitAll, h, ih]
    · cases hs : splitAll cs with
      | nil => exact absurd hs (splitAll_ne_nil cs)
      | cons s ss =>
        rw [List.cons_append,
          splitAll_cons_ne c (cs ++ '/' :: b) s (ss ++ splitAll b) h (by rw [ih, hs]; rfl),
          splitAll_cons_ne c cs s ss h hs]
        rfl

/-- The segments of `a/b` are those of `a` followed by those of `b`. -/
theorem segments_append_slash (a b : Str) :
    segments (a ++ '/' :: b) = segments a ++ segments b := by
  simp [segments, splitAll_append_slash]

theorem addSegs_wildcard_cut {V : Type} (v : Option V) (n : Str) (T : List Str) :
    ∀ (P : List Str) (t : RouteTrie V),
      addSegs t (P ++ ('*' :: n) :: T) v = addSegs t (P ++ [('*' :: n)]) v := by
  intro P
  induction P with
  | nil => intro t; simp [addSegs]
  | cons s rest ih =>
    intro t
    cases s with
    | nil => rfl
    | cons c name =>
      rw [List.cons_append, List.cons_append]
      simp only [addSegs, ih]

/-- C11. A wildcard segment always terminates the route: for every trie `t`,
every route `r` whose segments are a sequence `P` followed by a wildcard segment
`*n` (the name `n` possibly empty), every string `T` and every value `v`,
`Add(r/T, v)` returns the same result and leaves exactly the same trie as
`Add(r, v)`: nothing of `T` is registered and no error is reported for it. -/
theorem wildcard_terminates_route {V : Type} (t : RouteTrie V) (r : Str) (P : List Str)
    (n T : Str) (v : Option V) (hr : segments r = P ++ [('*' :: n)]) :
    Add t (r ++ '/' :: T) v = Add t r v := by
  rw [Add_eq_addSegs, Add_eq_addSegs, segments_append_slash, hr, List.append_assoc]
  exact addSegs_wildcard_cut v n (segments T) P t

/-- Witness of C11: the route `a/*mid/b` of the specification. -/
theorem wildcard_terminates_route_witness :
    segments (str "a/*mid") = [str "a"] ++ [('*' :: str "mid")] ∧
    Add (NewRouteTrie : RouteTrie Nat) (str "a/*mid/b") (some 1)
      = Add (NewRouteTrie : RouteTrie Nat) (str "a/*mid") (some 1) :=
  ⟨by decide,
    wildcard_terminates_route NewRouteTrie (str "a/*mid") [str "a"] (str "mid") (str "b")
      (some 1) (by decide)⟩

/-! ## C15 and C16: what `Add` leaves unchanged -/

/-- C15. A failed `Add` is atomic: for every trie `t` (reachable from
`NewRouteTrie` or not), every route `r` and every value `v`, if `Add(r, v)`
returns the conflict error then the trie is exactly as it was before the call,
and therefore `Get(q)` returns the same value and mapping for every route `q`
before and after the failed call. -/
theorem failed_add_atomic {V : Type} (t : RouteTrie V) (r : Str) (v : Option V)
    (herr : (Add t r v).2 = some .paramConflict) :
    (Add t r v).1 = t ∧ ∀ q : Str, Get (Add t r v).1 q = Get t q := by
  have h : (Add t r v).1 = t := by
    rw [Add_eq_addSegs] at herr ⊢
    exact addSegs_error_unchanged v _ (fun s hs => mem_segments_ne_nil hs) t
      (by rw [herr]; simp)
  exact ⟨h, fun q => by rw [h]⟩

/-- Witness of C15: on the trie holding `a/:x`, the route `a/:y/b` is refused
and the lookup of `a/z` is as before. -/
theorem failed_add_atomic_witness :
    (Add (Add (NewRouteTrie : RouteTrie Nat) (str "a/:x") (some 1)).1 (str "a/:y/b")
      (some 2)).2 = some .paramConflict ∧
    Get (Add (Add (NewRouteTrie : RouteTrie Nat) (str "a/:x") (some 1)).1 (str "a/:y/b")
      (some 2)).1 (str "a/z") =
    Get (Add (NewRouteTrie : RouteTrie Nat) (str "a/:x") (some 1)).1 (str "a/z") :=
  ⟨by decide,
    (failed_add_atomic (Add (NewRouteTrie : RouteTrie Nat) (str "a/:x") (some 1)).1
      (str "a/:y/b") (some 2) (by decide)).2 (str "a/z")⟩

/-- C16. `Add` does not disturb unrelated lookups: for every trie `t`
(reachable from `NewRouteTrie` or not), every route `r` and value `v` for which
`Add(r, v)` returns no error, and every lookup route `q` that does not match
`r` (over their segments in order, with `r` cut after its first `*` segment:
literal segments must be equal, a `:` segment matches exactly one segment, a `*`
segment matches one or more remaining segments), `Get(q)` returns the same value
and the same mapping after the `Add` as before it. -/
theorem add_frame {V : Type} (t : RouteTrie V) (r q : Str) (v : Option V)
    (hok : (Add t r v).2 = none) (hno : routeMatches r q = false) :
    Get (Add t r v).1 q = Get t q := by
  have hm : matchSegs (segments r) ((levels q).map Prod.fst) = false := by
    rw [levels_map_fst]; exact hno
  rw [Add_eq_addSegs] at hok
  simp only [Get, getValue_eq_getSegs, Add_eq_addSegs,
    addSegs_frame v _ (fun s hs => mem_segments_ne_nil hs) t hok _ [] hm]

/-- Witness of C16 on the trie of the test: adding `example.com/foo/:bar/qux`
leaves the lookup of `example.com/foo/bar/baz` as it was. -/
theorem add_frame_witness :
    (Add testTrie (str "example.com/foo/:bar/qux") (some 11)).2 = none ∧
    routeMatches (str "example.com/foo/:bar/qux") (str "example.com/foo/bar/baz") = false ∧
    Get (Add testTrie (str "example.com/foo/:bar/qux") (some 11)).1
      (str "example.com/foo/bar/baz") = (some 3, some [(str "bar", str "bar")]) :=
  ⟨by decide, by decide,
    (add_frame testTrie (str "example.com/foo/:bar/qux") (str "example.com/foo/bar/baz")
      (some 11) (by decide) (by decide)).trans (by decide)⟩

/-! ## C18: a wildcard needs a remaining segment -/

theorem matchSegs_wildcard_end (n : Str) : ∀ P : List Str,
    (∀ s ∈ P, isWildcard s = false) → matchSegs (P ++ [('*' :: n)]) P = false := by
  intro P
  induction P with
  | nil => intro _; simp [matchSegs, isWildcard]
  | cons s rest ih =>
    intro hP
    have hs := hP s (List.mem_cons_self _ _)
    have ih2 := ih (fun s hs => hP s (List.mem_cons_of_mem _ hs))
    simp [matchSegs, hs, ih2]

theorem isWildcard_of_isLiteral {s : Str} (h : isLiteral s = true) : isWildcard s = false := by
  simp only [isLiteral, Bool.and_eq_true, Bool.not_eq_true'] at h
  exact h.2

theorem segments_append_end_slash (q : Str) : segments (q ++ ['/']) = segments q := by
  rw [segments_append_slash q []]
  simp [segments, splitAll]

/-- C18. A wildcard needs at least one remaining segment: on a freshly
constructed trie, for every sequence `P` of literal segments, every wildcard
name `n` (possibly empty) and every non-nil value `v`, after `Add` of a route
with segments `P, *n`, both `Get(q)` and `Get(q ++ "/")`, for a route `q` whose
segments are exactly `P`, return no match (absent value, absent mapping). -/
theorem wildcard_needs_segment {V : Type} (r q : Str) (P : List Str) (n : Str) (v : V)
    (hP : ∀ s ∈ P, isLiteral s = true) (hr : segments r = P ++ [('*' :: n)])
    (hq : segments q = P) :
    Get (Add (NewRouteTrie : RouteTrie V) r (some v)).1 q = (none, none) ∧
    Get (Add (NewRouteTrie : RouteTrie V) r (some v)).1 (q ++ ['/']) = (none, none) := by
  have hne : ∀ s ∈ segments r, s ≠ [] := fun s hs => mem_segments_ne_nil hs
  have hok : (addSegs (NewRouteTrie : RouteTrie V) (segments r) (some v)).2 = none :=
    addSegs_new_ok _ _ hne
  have hm : matchSegs (segments r) P = false := by
    rw [hr]
    exact matchSegs_wildcard_end n P (fun s hs => isWildcard_of_isLiteral (hP s hs))
  have key : ∀ q2 : Str, segments q2 = P →
      Get (Add (NewRouteTrie : RouteTrie V) r (some v)).1 q2 = (none, none) := by
    intro q2 hq2
    have hm2 : matchSegs (segments r) ((levels q2).map Prod.fst) = false := by
      rw [levels_map_fst, hq2]; exact hm
    simp only [Get, getValue_eq_getSegs, Add_eq_addSegs,
      addSegs_frame (some v) _ hne NewRouteTrie hok _ [] hm2, getSegs_new]
  exact ⟨key q hq, key _ (by rw [segments_append_end_slash, hq])⟩

/-- Witness of C18: after `example.com/foo/*rest`, neither `example.com/foo`
nor `example.com/foo/` finds a match. -/
theorem wildcard_needs_segment_witness :
    (∀ s ∈ [str "example.com", str "foo"], isLiteral s = true) ∧
    segments (str "example.com/foo/*rest") =
      [str "example.com", str "foo"] ++ [('*' :: str "rest")] ∧
    segments (str "example.com/foo") = [str "example.com", str "foo"] ∧
    Get (Add (NewRouteTrie : RouteTrie Nat) (str "example.com/foo/*rest") (some 5)).1
      (str "example.com/foo") = (none, none) ∧
    Get (Add (NewRouteTrie : RouteTrie Nat) (str "example.com/foo/*rest") (some 5)).1
      (str "example.com/foo/") = (none, none) :=
  ⟨by decide, by decide, by decide,
    wildcard_needs_segment (str "example.com/foo/*rest") (str "example.com/foo")
      [str "example.com", str "foo"] (str "rest") 5 (by decide) (by decide) (by decide)⟩

/-! ## C20: `head[0]` is in range -/

/-- C20. `Add` never indexes out of range: for every trie, route and value,
whenever the route is non-empty after `normalize` it does not begin with `/`
and the head returned by `split` is non-empty, so the test `head[0]` is in
range; hence the index-out-of-range outcome never occurs, and `Add` either
succeeds or returns the conflict error. -/
theorem add_index_in_range {V : Type} (t : RouteTrie V) (route : Str) (v : Option V) :
    (normalize route ≠ [] →
      (normalize route).head? ≠ some '/' ∧ (split (normalize route)).1 ≠ []) ∧
    (Add t route v).2 ≠ some .indexOutOfRange ∧
    ((Add t route v).2 = none ∨ (Add t route v).2 = some .paramConflict) := by
  refine ⟨?_, ?_, ?_⟩
  · intro hne
    obtain ⟨c, cs, hc, hn⟩ := (normalize_cases route).resolve_left hne
    rw [hn, split_cons_ne c cs hc]
    simp [hc]
  · rw [Add_eq_addSegs, addSegs_error_eq v _ (fun s hs => mem_segments_ne_nil hs)]
    cases conflictAt t (segments route) <;> simp
  · rw [Add_eq_addSegs, addSegs_error_eq v _ (fun s hs => mem_segments_ne_nil hs)]
    cases conflictAt t (segments route) <;> simp

/-- Witness of C20: the route `//a//b`, whose normalized form is `a//b` with
head `a`. -/
theorem add_index_in_range_witness :
    normalize (str "//a//b") ≠ [] ∧
    (normalize (str "//a//b")).head? ≠ some '/' ∧
    (split (normalize (str "//a//b"))).1 ≠ [] :=
  ⟨by decide,
    (add_index_in_range (NewRouteTrie : RouteTrie Nat) (str "//a//b") (some 1)).1 (by decide)⟩

/-! ## C19: termination and recursion depth -/

theorem segments_tail_length (route : Str) (h : normalize route ≠ []) :
    (segments (split (normalize route)).2).length + 1 = (segments route).length := by
  rw [segments_unfold route, if_neg h]
  rfl

theorem AddFuel_of_segments {V : Type} (n : Nat) : ∀ (t : RouteTrie V) (route : Str)
    (value : Option V), (segments route).length < n →
    AddFuel n t route value = addSegs t (segments route) value := by
  induction n with
  | zero => intro t route value h; omega
  | succ n ih =>
    intro t route value hn
    by_cases h : normalize route = []
    · rw [segments_unfold]
      simp [AddFuel, h, addSegs]
    · have hlen := segments_tail_length route h
      rw [segments_unfold]
      simp only [AddFuel, h, if_false]
      obtain ⟨c, cs, hc, hnorm⟩ := (normalize_cases route).resolve_left h
      rw [hnorm, split_cons_ne c cs hc] at hlen
      rw [hnorm, split_cons_ne c cs hc]
      have hlt : (segments (split cs).2).length < n := by
        have h2 : (segments (split cs).2).length + 1 = (segments route).length := hlen
        omega
      simp only [addSegs]
      simp only [ih _ _ _ hlt]

theorem getValueFuel_of_segments {V : Type} (n : Nat) : ∀ (t : RouteTrie V) (route : Str)
    (params : Params), (segments route).length < n →
    getValueFuel n t route params = getSegs t (levels route) params := by
  induction n with
  | zero => intro t route params h; omega
  | succ n ih =>
    intro t route params hn
    by_cases h : normalize route = []
    · rw [levels_unfold]
      simp [getValueFuel, h, getSegs]
    · have hlen := segments_tail_length route h
      rw [levels_unfold]
      simp only [getValueFuel, h, if_false]
      simp only [getSegs]
      simp only [ih _ _ _ (show (segments (split (normalize route)).2).length < n by omega)]

/-- C19. `Add` and `Get` terminate on every input: each recursive call of
`Add` and of `getValue` is made on the tail of `split`, a route strictly shorter
than the one received and with exactly one segment fewer; so a recursion depth
of the number of segments of the route plus one is enough: with any depth
bound `n` above the number of segments, the depth-bounded `AddFuel n` and
`getValueFuel n` return the results of `Add` and `getValue`. The number of
segments is at most the number of pieces between slashes. -/
theorem recursion_depth_bounded {V : Type} (t : RouteTrie V) (route : Str)
    (value : Option V) (params : Params) :
    (normalize route ≠ [] →
      (split (normalize route)).2.length < route.length ∧
      (segments (split (normalize route)).2).length + 1 = (segments route).length) ∧
    (∀ n, (segments route).length < n →
      AddFuel n t route value = Add t route value ∧
      getValueFuel n t route params = getValue t route params) ∧
    (segments route).length ≤ (splitAll route).length := by
  refine ⟨fun h => ⟨split_tail_lt route h, segments_tail_length route h⟩, ?_, ?_⟩
  · intro n hn
    rw [AddFuel_of_segments n t route value hn, getValueFuel_of_segments n t route params hn,
      Add_eq_addSegs, getValue_eq_getSegs]
    exact ⟨rfl, rfl⟩
  · exact List.length_filter_le _ _

/-- Witness of C19: the route `/a//b/c/` has three segments, its tail after the
first call is `/b/c/`, and depth four is enough. -/
theorem recursion_depth_bounded_witness :
    normalize (str "/a//b/c/") ≠ [] ∧
    (split (normalize (str "/a//b/c/"))).2 = str "/b/c/" ∧
    (segments (str "/a//b/c/")).length < 4 ∧
    AddFuel 4 testTrie (str "/a//b/c/") (some 1) = Add testTrie (str "/a//b/c/") (some 1) ∧
    getValueFuel 4 testTrie (str "/a//b/c/") [] = getValue testTrie (str "/a//b/c/") [] :=
  ⟨by decide, by decide, by decide,
    (recursion_depth_bounded testTrie (str "/a//b/c/") (some 1) []).2.1 4 (by decide)⟩

/-! ## C17: trailing slashes -/

theorem normalize_append (r s : Str) :
    normalize (r ++ s) = if normalize r = [] then normalize s else normalize r ++ s := by
  induction r with
  | nil => simp [normalize_nil]
  | cons c cs ih =>
    by_cases h : c = '/'
    · subst h; rw [List.cons_append, normalize_slash, normalize_slash]; exact ih
    · rw [List.cons_append, normalize_cons_ne c _ h, normalize_cons_ne c cs h]
      simp

theorem trimRight_append_slash (x : Str) : trimRight (x ++ ['/']) = trimRight x := by
  simp [trimRight, List.dropWhile]

theorem split_of_no_slash (x : Str) (h : '/' ∉ x) : split x = (x, []) := by
  induction x with
  | nil => rfl
  | cons c cs ih =>
    simp only [List.mem_cons, not_or] at h
    rw [split_cons_ne c cs (fun e => h.1 e.symm), ih h.2]

theorem split_append_of_mem (x s : Str) (h : '/' ∈ x) :
    split (x ++ s) = ((split x).1, (split x).2 ++ s) := by
  induction x with
  | nil => simp at h
  | cons c cs ih =>
    by_cases hc : c = '/'
    · subst hc; rw [List.cons_append, split_slash, split_slash]
    · have hm : '/' ∈ cs := by
        simp only [List.mem_cons] at h
        rcases h with h | h
        · exact absurd h.symm hc
        · exact h
      rw [List.cons_append, split_cons_ne c _ hc, split_cons_ne c cs hc, ih hm]

theorem levels_append_end_slash_aux (n : Nat) : ∀ r : Str, r.length < n →
    levels (r ++ ['/']) = levels r := by
  induction n with
  | zero => intro r h; omega
  | succ n ih =>
    intro r hn
    rw [levels_unfold (r ++ ['/']), levels_unfold r, normalize_append]
    by_cases h : normalize r = []
    · have e : normalize ['/'] = [] := by decide
      simp only [h, if_true, e]
    · have hlt := split_tail_lt r h
      simp only [h, if_false]
      rw [if_neg (by simp), trimRight_append_slash]
      by_cases hs : '/' ∈ normalize r
      · rw [split_append_of_mem _ _ hs]
        simp only
        rw [ih _ (by omega)]
      · rw [split_append_slash _ _ hs, split_of_no_slash _ hs]

/-- The lookup levels of `r/` are those of `r`, captured remainders included. -/
theorem levels_append_end_slash (r : Str) : levels (r ++ ['/']) = levels r :=
  levels_append_end_slash_aux _ r (Nat.lt_succ_self _)

/-- C17. Trailing slashes are insignificant: for every trie `t`, every route
`r` and every value `v`, `Add(r ++ "/", v)` returns the same result and produces
the same trie as `Add(r, v)`, and `Get(r ++ "/")` returns the same value and the
same mapping as `Get(r)`, including the value captured by a named wildcard. -/
theorem trailing_slash_insignificant {V : Type} (t : RouteTrie V) (r : Str) (v : Option V) :
    Add t (r ++ ['/']) v = Add t r v ∧ Get t (r ++ ['/']) = Get t r := by
  constructor
  · rw [Add_eq_addSegs, Add_eq_addSegs, segments_append_end_slash]
  · simp only [Get, getValue_eq_getSegs, levels_append_end_slash]

/-! ## C14: empty segments -/

/-- C14, as stated, fails: after `Add("foo//bar", 1)` on a fresh trie, the
lookup of the two-segment route `foo/bar` returns 1 with an empty mapping, and
the node of `foo` has no literal child keyed by the empty string. -/
theorem empty_segment_counterexample :
    Get (Add (NewRouteTrie : RouteTrie Nat) (str "foo//bar") (some 1)).1 (str "foo/bar")
      = (some 1, some []) ∧
    (nodeAt (Add (NewRouteTrie : RouteTrie Nat) (str "foo//bar") (some 1)).1
      [Edge.lit (str "foo"), Edge.lit []]).isNone = true :=
  ⟨by decide, by decide⟩

/-- C14, amended. An empty segment is dropped, not stored: on a freshly
constructed trie and for every non-nil value `v`, `Add("foo//bar", v)` returns
the same result and builds the same trie as `Add("foo/bar", v)`: it stores `v`
at the two-segment literal path `foo`, `bar`, the node of `foo` gets no literal
child keyed by the empty string, and afterwards `Get("foo//bar")` and
`Get("foo/bar")` both return `v` with an empty mapping. -/
theorem empty_segment_dropped {V : Type} (v : V) :
    Add (NewRouteTrie : RouteTrie V) (str "foo//bar") (some v)
      = Add (NewRouteTrie : RouteTrie V) (str "foo/bar") (some v) ∧
    (nodeAt (Add (NewRouteTrie : RouteTrie V) (str "foo//bar") (some v)).1
      [Edge.lit (str "foo"), Edge.lit (str "bar")]).map RouteTrie.value = some (some v) ∧
    (nodeAt (Add (NewRouteTrie : RouteTrie V) (str "foo//bar") (some v)).1
      [Edge.lit (str "foo"), Edge.lit []]).isNone = true ∧
    Get (Add (NewRouteTrie : RouteTrie V) (str "foo//bar") (some v)).1 (str "foo//bar")
      = (some v, some []) ∧
    Get (Add (NewRouteTrie : RouteTrie V) (str "foo//bar") (some v)).1 (str "foo/bar")
      = (some v, some []) :=
  ⟨rfl, rfl, rfl, rfl, rfl⟩

/-! ## C12: wildcard registration -/

theorem mapSet_keys_of_mapGet {α : Type} (m : GoMap α) (k : Str) (a b : α)
    (h : mapGet m k = some a) : (mapSet m k b).map Prod.fst = m.map Prod.fst := by
  induction m with
  | nil => simp [mapGet] at h
  | cons e rest ih =>
    obtain ⟨k2, a2⟩ := e
    by_cases hk : k2 = k
    · subst hk; simp [mapSet]
    · simp [mapGet, hk] at h
      simp [mapSet, hk, ih h]

theorem edgeOf_param (name : Str) : edgeOf (':' :: name) = Edge.param := by
  simp [edgeOf, isParam]

theorem edgeOf_lit (c : Char) (name : Str) (h : c ≠ ':') :
    edgeOf (c :: name) = Edge.lit (c :: name) := by
  simp [edgeOf, isParam, h]

/-- Registering a wildcard at the existing node reached by `P` succeeds,
replaces the wildcard child of that node and changes the own data of no other
node. -/
theorem addSegs_wildcard_at {V : Type} (n : Str) (v : Option V) :
    ∀ (P : List Str) (t node : RouteTrie V), (∀ s ∈ P, s ≠ []) → walk t P = some node →
      (addSegs t (P ++ [('*' :: n)]) v).2 = none ∧
      walk (addSegs t (P ++ [('*' :: n)]) v).1 P =
        some (.mk node.children node.paramChild (some ⟨n, v⟩) node.value) ∧
      ∀ Q : List Edge, (nodeAt (addSegs t (P ++ [('*' :: n)]) v).1 Q).map nodeData =
        if Q = pathOf P then
          some ⟨node.children.map Prod.fst, node.paramChild.map Prod.fst, some ⟨n, v⟩,
            node.value⟩
        else (nodeAt t Q).map nodeData := by
  intro P
  induction P with
  | nil =>
    intro t node _ hw
    simp only [walk, Option.some.injEq] at hw
    subst hw
    refine ⟨by simp [addSegs], by simp [addSegs, walk], ?_⟩
    intro Q
    cases Q with
    | nil => simp [addSegs, nodeAt, pathOf, nodeData]
    | cons e rest => cases e <;> simp [addSegs, nodeAt, pathOf]
  | cons s rest ih =>
    intro t node hne hw
    have ih := fun t2 node2 => ih t2 node2 (fun s hs => hne s (List.mem_cons_of_mem _ hs))
    cases s with
    | nil => exact absurd rfl (hne [] (List.mem_cons_self _ _))
    | cons c name =>
      by_cases h2 : c = '*'
      · subst h2; simp [walk, isWildcard] at hw
      · by_cases h1 : c = ':'
        · subst h1
          cases hp : t.paramChild with
          | none => simp [walk, isWildcard, isParam, hp] at hw
          | some pc =>
            obtain ⟨pname, ptrie⟩ := pc
            by_cases hn : pname = name
            · subst hn
              simp only [walk, isWildcard, isParam, hp, List.head?_cons, Option.some.injEq,
                List.drop_succ_cons, List.drop_zero, if_true] at hw
              simp at hw
              obtain ⟨e1, e2, e3⟩ := ih ptrie node hw
              rw [List.cons_append]
              generalize rest ++ [('*' :: n)] = A at e1 e2 e3 ⊢
              refine ⟨by simp [addSegs, hp, e1], by simp [addSegs, hp, walk, isWildcard, isParam, e2], ?_⟩
              intro Q
              cases Q with
              | nil => simp [addSegs, hp, nodeAt, pathOf, nodeData]
              | cons e Q2 =>
                cases e with
                | lit key => simp [addSegs, hp, nodeAt, pathOf, edgeOf_param]
                | param =>
                  simp only [addSegs, hp, nodeAt, pathOf, edgeOf_param, List.map_cons,
                    List.cons.injEq, true_and, if_true, ne_eq, not_true_eq_false, if_false,
                    paramChild_mk]
                  exact e3 Q2
            · simp [walk, isWildcard, isParam, hp, hn] at hw
        · cases hm : mapGet t.children (c :: name) with
          | none => simp [walk, isWildcard, isParam, h1, h2, hm] at hw
          | some child =>
            simp [walk, isWildcard, isParam, h1, h2, hm] at hw
            obtain ⟨e1, e2, e3⟩ := ih child node hw
            rw [List.cons_append]
            generalize rest ++ [('*' :: n)] = A at e1 e2 e3 ⊢
            refine ⟨by simp [addSegs, h1, h2, hm, e1],
              by simp [addSegs, h1, h2, hm, walk, isWildcard, isParam, mapGet_mapSet_same, e2],
              ?_⟩
            intro Q
            cases Q with
            | nil =>
              simp [addSegs, h1, h2, hm, nodeAt, pathOf, nodeData,
                mapSet_keys_of_mapGet _ _ _ _ hm]
            | cons e Q2 =>
              cases e with
              | param => simp [addSegs, h1, h2, hm, nodeAt, pathOf, edgeOf_lit c name h1]
              | lit key =>
                by_cases hk : key = c :: name
                · subst hk
                  simp only [addSegs, h1, h2, hm, if_false, nodeAt, children_mk,
                    mapGet_mapSet_same, pathOf, List.map_cons, edgeOf_lit c name h1,
                    List.cons.injEq, true_and]
                  exact e3 Q2
                · have hk2 : ¬ (c :: name = key) := fun e => hk e.symm
                  simp [addSegs, h1, h2, hm, nodeAt, pathOf, edgeOf_lit c name h1,
                    mapGet_mapSet_ne _ _ _ _ hk2, hk]


/-- C12. Wildcard registration is last-write-wins and touches nothing else:
for every trie `t`, every existing node `node` reached from `t` by a sequence of
segments `P`, all wildcard names `n1`, `n2` and values `v1`, `v2`, after `Add`
of a route with segments `P, *n1` (value `v1`) followed by `Add` of a route with
segments `P, *n2` (value `v2`), both without error, the node at `P` is `node`
with the single wildcard child `(n2, v2)` - its literal children, its parameter
child and its own stored value as before - and at every other position of the
trie there is a node exactly when there was one, with the same own data. -/
theorem wildcard_last_write_wins {V : Type} (t node : RouteTrie V) (P : List Str)
    (n1 n2 : Str) (v1 v2 : Option V) (r1 r2 : Str) (hwalk : walk t P = some node)
    (h1 : segments r1 = P ++ [('*' :: n1)]) (h2 : segments r2 = P ++ [('*' :: n2)]) :
    (Add t r1 v1).2 = none ∧ (Add (Add t r1 v1).1 r2 v2).2 = none ∧
    walk (Add (Add t r1 v1).1 r2 v2).1 P =
      some (.mk node.children node.paramChild (some ⟨n2, v2⟩) node.value) ∧
    ∀ Q : List Edge, (nodeAt (Add (Add t r1 v1).1 r2 v2).1 Q).map nodeData =
      if Q = pathOf P then
        some ⟨node.children.map Prod.fst, node.paramChild.map Prod.fst, some ⟨n2, v2⟩,
          node.value⟩
      else (nodeAt t Q).map nodeData := by
  have hne : ∀ s ∈ P, s ≠ [] := fun s hs =>
    mem_segments_ne_nil (r := r1) (by rw [h1]; simp [hs])
  obtain ⟨a1, a2, a3⟩ := addSegs_wildcard_at n1 v1 P t node hne hwalk
  obtain ⟨b1, b2, b3⟩ := addSegs_wildcard_at n2 v2 P _ _ hne a2
  simp only [Add_eq_addSegs, h1, h2]
  refine ⟨a1, b1, b2, ?_⟩
  intro Q
  rw [b3 Q]
  by_cases hQ : Q = pathOf P
  · simp [hQ]
  · simp only [hQ, if_false]
    rw [a3 Q, if_neg hQ]

/-- Witness of C12: on the trie holding `a/b`, the wildcards `a/*x` and then
`a/*y` are registered at the node of `a`. -/
theorem wildcard_last_write_wins_witness :
    walk (Add (NewRouteTrie : RouteTrie Nat) (str "a/b") (some 1)).1 [str "a"] =
      some (.mk [(str "b", .mk [] none none (some 1))] none none none) ∧
    segments (str "a/*x") = [str "a"] ++ [('*' :: str "x")] ∧
    segments (str "a/*y") = [str "a"] ++ [('*' :: str "y")] ∧
    walk (Add (Add (Add (NewRouteTrie : RouteTrie Nat) (str "a/b") (some 1)).1
      (str "a/*x") (some 2)).1 (str "a/*y") (some 3)).1 [str "a"] =
      some (.mk [(str "b", .mk [] none none (some 1))] none (some ⟨str "y", some 3⟩) none) :=
  ⟨rfl, by decide, by decide,
    (wildcard_last_write_wins (Add (NewRouteTrie : RouteTrie Nat) (str "a/b") (some 1)).1
      (.mk [(str "b", .mk [] none none (some 1))] none none none) [str "a"]
      (str "x") (str "y") (some 2) (some 3) (str "a/*x") (str "a/*y")
      rfl (by decide) (by decide)).2.2.1⟩

end routetrie
